import Mathlib

/-!
Verification of quickwit's S3-compatible object storage
(`quickwit-storage/src/object_storage/s3_compatible_storage.rs`).

The Rust source is shallowly embedded: paths are modelled at the level of
their components (mirroring Rust's component-based `Path` semantics),
strings as lists of characters, remote calls as explicit outcome
parameters, and panics (`expect`, `assert!`) as `Option.none`.
-/

namespace S3Storage

/-- A path component: a piece of a POSIX-style path between separators. -/
abbrev Comp := List Char

/-- A key string sent over the wire, as a list of characters. -/
abbrev KeyStr := List Char

/-- A (relative) path, as its list of components.  Rust `Path`/`PathBuf`
equality is component-based, which this representation mirrors. -/
abbrev RPath := List Comp

/-- Well-formedness of one component: non-empty, separator-free and not the
current-directory marker (Rust `Path::components` never yields an empty or
`/`-containing `Normal` component, and a `.` piece is parsed as `CurDir`,
which `components` drops everywhere but at the very front of a path). -/
def wfComp (c : Comp) : Prop := c ≠ [] ∧ '/' ∉ c ∧ c ≠ ['.']

/-- Well-formedness of a path: all components well-formed. -/
def wfPath (p : RPath) : Prop := ∀ c ∈ p, wfComp c

instance (c : Comp) : Decidable (wfComp c) := by unfold wfComp; infer_instance

instance (p : RPath) : Decidable (wfPath p) := by unfold wfPath; infer_instance

/-- Render a component list as a string: components joined by `/`.
This is what `PathBuf::join` + `to_string_lossy` produce on Unix. -/
def renderPath : RPath → KeyStr
  | [] => []
  | [c] => c
  | c :: rest => c ++ '/' :: renderPath rest

/-- Splitting helper: split on `/`, accumulating the current component. -/
def splitAux : KeyStr → Comp → RPath
  | [], acc => [acc]
  | c :: rest, acc => if c = '/' then acc :: splitAux rest [] else splitAux rest (acc ++ [c])

/-- Raw split of a key string on `/` (no normalization yet); the empty
string splits into no pieces. -/
def splitRaw (k : KeyStr) : RPath := if k = [] then [] else splitAux k []

/-- Whether a raw `/`-separated piece survives `Path::components`:
empty pieces (doubled, leading or trailing separators) and the
current-directory marker `.` are dropped. -/
def keepComp (c : Comp) : Bool := !c.isEmpty && decide (c ≠ ['.'])

/-- Normalization performed by Rust `Path::components` on the raw pieces of
a relative path: empty pieces and `.` pieces are dropped, except that a
path whose first raw piece is `.` (i.e. the string is `.` or starts with
`./`) keeps one leading `CurDir` component. -/
def normalizeSplit : List Comp → RPath
  | [] => []
  | c :: rest =>
    if c = ['.'] then ['.'] :: rest.filter keepComp
    else (c :: rest).filter keepComp

/-- Split a key string into its components: Rust `Path::components` of a
relative path string — raw `/`-split followed by the `CurDir`/empty-piece
normalization `components` performs. -/
def splitPath (k : KeyStr) : RPath := normalizeSplit (splitRaw k)

/-- `S3CompatibleObjectStorage::key`: `self.prefix.join(relative_path)`
rendered as a string. `PathBuf::join` concatenates the stored strings,
inserting one separator when the prefix is non-empty (so an empty relative
path yields a trailing separator, and no `.`/`..` normalization happens at
the string level). -/
def key (pre : RPath) (relativePath : RPath) : KeyStr :=
  if pre = [] then renderPath relativePath
  else renderPath pre ++ '/' :: renderPath relativePath

/-- `S3CompatibleObjectStorage::relative_path`:
`Path::new(key).strip_prefix(&self.prefix)`, with the panicking `expect`
modelled as `none`.  `strip_prefix` matches and removes the prefix
component-wise (over the normalized components), and the remainder it
returns is trimmed of separators and `.` pieces exactly as `components`
normalization does — a path value being determined by its components. -/
def relative_path (pre : RPath) (k : KeyStr) : Option RPath :=
  let comps := splitPath k
  if pre <+: comps then some (comps.drop pre.length) else none

/-- `MD5_CHUNK_SIZE` from the source: the internal read-chunk size of the
streaming digest computation. -/
def MD5_CHUNK_SIZE : Nat := 1000000

/-- The MD5 digest, abstracted as the exact byte sequence consumed by the
hash context (`md5::Context` consumes chunks; `compute` finalizes).  A
collision-free digest is a function of this consumed sequence, so equality
of consumed sequences is the faithful notion of digest equality. -/
abbrev Md5Digest := List Nat

/-- `md5::compute(data)`: digest of the whole buffer at once
(one `consume` of everything, then `compute`). -/
def md5_compute (data : List Nat) : Md5Digest := data

/-- The read/consume loop of `compute_md5`: each iteration reads up to
`MD5_CHUNK_SIZE` bytes from the stream into the buffer, consumes the bytes
read, and returns the final digest when a read yields 0 bytes.  `fuel`
bounds the iteration count (structural recursion for executability). -/
def md5Loop : Nat → List Nat → List Nat → Md5Digest
  | 0, consumed, _ => consumed
  | fuel + 1, consumed, st =>
    let consumed' := consumed ++ st.take MD5_CHUNK_SIZE
    if st.isEmpty then consumed' else md5Loop fuel consumed' (st.drop MD5_CHUNK_SIZE)

/-- `compute_md5`, reading the whole buffer through the chunked loop.
`buf.length + 1` iterations always suffice since every iteration consumes
at least one byte until the stream is exhausted. -/
def compute_md5 (buf : List Nat) : Md5Digest := md5Loop (buf.length + 1) [] buf

/-- 64-bit `usize` modulus: the range arithmetic in
`create_get_object_request` is unsigned machine arithmetic. -/
def USIZE_SIZE : Nat := 2 ^ 64

/-- A half-open byte range, `Range<usize>`/`Range<u64>` (`end` is a Lean
keyword, rendered `stop`). -/
structure URange where
  start : Nat
  stop : Nat
deriving DecidableEq

/-- The range header built by `create_get_object_request`:
`format!("bytes={}-{}", range.start, range.end - 1)`, the subtraction
performed in wrapping `usize` arithmetic (debug Rust panics on underflow;
release wraps — both captured by the modulus for `stop < 2^64`). -/
def getRangeHeader (r : URange) : String :=
  "bytes=" ++ toString r.start ++ "-" ++ toString ((r.stop + USIZE_SIZE - 1) % USIZE_SIZE)

/-- The GET request assembled by `create_get_object_request`. -/
structure GetObjectRequest where
  bucket : String
  objectKey : KeyStr
  range : Option String
deriving DecidableEq

/-- `create_get_object_request`: resolves the key and renders the optional
inclusive range header. -/
def create_get_object_request (bucket : String) (pre : RPath) (path : RPath)
    (rangeOpt : Option URange) : GetObjectRequest :=
  { bucket := bucket, objectKey := key pre path, range := rangeOpt.map getRangeHeader }

/-- Expect the literal `://`. -/
def expectSep : List Char → Option (List Char)
  | c1 :: c2 :: c3 :: rest =>
    if c1 = ':' ∧ c2 = '/' ∧ c3 = '/' then some rest else none
  | _ => none

/-- Consume `(\+[^:]+)?://` after the leading `s3` of the URI pattern:
an optional `+`-extension (one or more non-colon characters) followed by
the literal separator. -/
def afterS3 (cs : List Char) : Option (List Char) :=
  match cs with
  | c :: rest =>
    if c = '+' then
      let ext := rest.takeWhile (fun x => x ≠ ':')
      if ext.isEmpty then none else expectSep (rest.drop ext.length)
    else expectSep cs
  | [] => none

/-- Match the `(?P<bucket>[^/]+)(/(?P<path>.+))?` tail of the pattern:
a greedy non-empty separator-free bucket, then optionally a separator and
a greedy `.+` path (`.` excludes the newline; the pattern is unanchored at
the end).  An unmatched optional `path` group becomes the empty path, as
`parse_s3_uri` maps it through `PathBuf::from("")`. -/
def matchBucket (rest2 : List Char) : Option (List Char × List Char) :=
  let bucket := rest2.takeWhile (fun x => x ≠ '/')
  if bucket.isEmpty then none
  else
    match rest2.drop bucket.length with
    | '/' :: tail => some (bucket, tail.takeWhile (fun x => x ≠ '\n'))
    | _ => some (bucket, [])

/-- Attempt the regex `s3(\+[^:]+)?://(?P<bucket>[^/]+)(/(?P<path>.+))?`
at the start of the string, returning the `bucket` and `path` captures. -/
def matchS3At (cs : List Char) : Option (List Char × List Char) :=
  match cs with
  | c1 :: c2 :: rest =>
    if c1 = 's' ∧ c2 = '3' then (afterS3 rest).bind matchBucket else none
  | _ => none

/-- `parse_s3_uri`: `Regex::captures` performs an unanchored leftmost
search, so the pattern is attempted at every start position in order. -/
def parse_s3_uri : List Char → Option (List Char × List Char)
  | [] => matchS3At []
  | c :: rest =>
    match matchS3At (c :: rest) with
    | some r => some r
    | none => parse_s3_uri rest

/-- Modelled from the spec: `chunk_range` lives in the `quickwit-common`
crate, which is not under src/.  Per the spec it splits `[start, stop)`
into contiguous chunks of size `chunkSize`, the last possibly shorter
(empty for an empty range).  This is the recursion helper; `fuel` bounds
the iteration count (structural recursion for executability), and
`stop - start` iterations always suffice when `chunkSize > 0`. -/
def chunkRangeGo (stop chunkSize : Nat) : Nat → Nat → List URange
  | 0, _ => []
  | fuel + 1, start =>
    if start < stop then
      ⟨start, min (start + chunkSize) stop⟩ :: chunkRangeGo stop chunkSize fuel (start + chunkSize)
    else []

/-- Modelled from the spec: `chunk_range(range, chunk_size)` from
`quickwit-common` (not under src/), splitting a byte range into chunks of
the given size. -/
def chunk_range (r : URange) (chunkSize : Nat) : List URange :=
  chunkRangeGo r.stop chunkSize (r.stop - r.start) r.start

/-- One chunk of a multipart upload (`Part` in the source). -/
structure Part where
  part_number : Nat
  range : URange
  md5 : Md5Digest
deriving DecidableEq

/-- `PutPayload::range_byte_stream`: the payload bytes of a sub-range. -/
def range_byte_stream (payload : List Nat) (r : URange) : List Nat :=
  (payload.drop r.start).take (r.stop - r.start)

/-- `create_multipart_requests`: splits `[0, len)` by `part_len`, reads
each range once to digest it, and numbers parts starting from 1.  The
`assert!(len > 0)` panic is modelled as `none`
(`into_u64_range` is the identity on `Nat`). -/
def create_multipart_requests (payload : List Nat) (len part_len : Nat) :
    Option (List Part) :=
  if len = 0 then none
  else some ((chunk_range ⟨0, len⟩ part_len).enum.map fun ir =>
    { part_number := ir.1 + 1, range := ir.2
      md5 := compute_md5 (range_byte_stream payload ir.2) })

/-- An error, abstracted to its rendered message. -/
abbrev Err := String

/-- Retry classification (`quickwit_aws::retry::Retry`): a failure marked
transient (retryable) or permanent. -/
inductive RetryErr (E : Type) where
  | transient (e : E)
  | permanent (e : E)
deriving DecidableEq

/-- The wrapped failure, classification stripped. -/
def RetryErr.inner {E : Type} : RetryErr E → E
  | .transient e => e
  | .permanent e => e

/-- Modelled from the spec: the retry engine (`quickwit_aws::retry::retry`)
is not under src/.  Per the spec, permanent failures abort immediately and
transient failures are retried until `max_attempts` is exhausted, at which
point the last transient error is surfaced.  `op n` is the outcome of the
(n+1)-th attempt; the `Nat` argument counts the retries still allowed
after the current attempt. -/
def retryFrom {E A : Type} (op : Nat → Except (RetryErr E) A) (i : Nat) :
    Nat → Except E A
  | 0 =>
    match op i with
    | .ok a => .ok a
    | .error r => .error r.inner
  | budget + 1 =>
    match op i with
    | .ok a => .ok a
    | .error (.permanent e) => .error e
    | .error (.transient _) => retryFrom op (i + 1) budget

/-- Modelled from the spec: `retry(retry_params, op)` with `maxAttempts`
total attempts (the retry engine is in `quickwit_aws`, not under src/). -/
def retry {E A : Type} (maxAttempts : Nat)
    (op : Nat → Except (RetryErr E) A) : Except E A :=
  retryFrom op 0 (maxAttempts - 1)

/-- The `max_attempts: 3` configured by `S3CompatibleObjectStorage::new`. -/
def S3_MAX_ATTEMPTS : Nat := 3

/-- `check_connectivity`: sends one `ListObjectsV2` request with
`max_keys(1)` directly — the source does not wrap this call in the retry
engine — and propagates its error.  Probe outcomes carry their retry
classification so the code can be compared against a retried probe; the
second component counts the probe calls issued. -/
def check_connectivity {E : Type} (probe : Nat → Except (RetryErr E) Unit) :
    Except E Unit × Nat :=
  (match probe 0 with
   | .ok _ => .ok ()
   | .error r => .error r.inner, 1)

/-- The remote calls issued by the upload paths, for tracing. -/
inductive S3Call where
  | putObject
  | createMultipartUpload
  | uploadPart (partNumber : Nat)
  | completeMultipartUpload
  | abortMultipartUpload
deriving DecidableEq

/-- `CompletedPart`: the part number and opaque integrity tag collected
after a successful part upload. -/
structure CompletedPart where
  e_tag : Option String
  part_number : Nat
deriving DecidableEq

/-- The post-retry outcomes of the remote calls a multipart put performs.
Each part upload and each session call is individually wrapped by the
retry engine in the source; the fields give each wrapped call's final
outcome (`createRes` also carries the optional upload id of the create
response, `uploadRes` the optional e_tag per part number). -/
structure MultipartRemote where
  createRes : Except Err (Option String)
  uploadRes : Nat → Except Err (Option String)
  completeRes : Except Err Unit
  abortRes : Except Err Unit

/-- `create_multipart_upload`: retried create call; a missing upload id in
a successful response is an internal error. -/
def create_multipart_upload (r : MultipartRemote) : Except Err String :=
  match r.createRes with
  | .error e => .error e
  | .ok none => .error ("The returned multipart upload id was null.")
  | .ok (some uploadId) => .ok uploadId

/-- `upload_part` after its retry wrapper: on success builds the
`CompletedPart` record from the response's e_tag and the part number. -/
def upload_part (r : MultipartRemote) (part : Part) : Except Err CompletedPart :=
  match r.uploadRes part.part_number with
  | .error e => .error e
  | .ok etag => .ok { e_tag := etag, part_number := part.part_number }

/-- `collect::<Result<Vec<_>, _>>`: the first error in stream order wins
(`buffered` yields results in the order of the part stream). -/
def collectResults {E A : Type} : List (Except E A) → Except E (List A)
  | [] => .ok []
  | .error e :: _ => .error e
  | .ok a :: rest => (collectResults rest).map (fun l => a :: l)

/-- `put_multi_part`: create a session, build the part requests, upload
all parts (each retried; the buffered stream drives every part to
completion regardless of other parts' failures), then complete on success
or abort exactly once on failure, swallowing the abort call's own error
after logging it.  Returns the result with the trace of remote calls;
`none` models the `assert!(len > 0)` panic of the request builder. -/
def put_multi_part (r : MultipartRemote) (payload : List Nat)
    (part_len total_len : Nat) : Option (Except Err Unit × List S3Call) :=
  match create_multipart_upload r with
  | .error e => some (.error e, [.createMultipartUpload])
  | .ok _ =>
    (create_multipart_requests payload total_len part_len).map fun parts =>
      let trace := S3Call.createMultipartUpload ::
        parts.map (fun p => S3Call.uploadPart p.part_number)
      match collectResults (parts.map (upload_part r)) with
      | .ok _ => (r.completeRes, trace ++ [S3Call.completeMultipartUpload])
      | .error uploadError => (.error uploadError, trace ++ [S3Call.abortMultipartUpload])

/-- `put`: computes the total length from the payload, resolves the part
size from the multipart policy for that length (`part_num_bytes`, a field
of the policy living outside src/, kept abstract), and either performs one
single-shot upload (one retried PutObject whose post-retry outcome is
`singleRes`) or delegates to `put_multi_part`. -/
def put (r : MultipartRemote) (singleRes : Except Err Unit)
    (part_num_bytes : Nat → Nat) (payload : List Nat) :
    Option (Except Err Unit × List S3Call) :=
  let total_len := payload.length
  let part_len := part_num_bytes total_len
  if total_len ≤ part_len then some (singleRes, [S3Call.putObject])
  else put_multi_part r payload part_len total_len

/-- A per-key failure recorded by `bulk_delete` (`DeleteFailure`; its
`Default` leaves every field `None`, and `bulk_delete` never fills
`error`). -/
structure DeleteFailure where
  code : Option String
  message : Option String
  error : Option String
deriving DecidableEq

/-- One `<Deleted>` entry of a `DeleteObjects` response. -/
structure DeletedObject where
  key : Option KeyStr
deriving DecidableEq

/-- One `<Error>` entry of a `DeleteObjects` response. -/
structure S3DeleteError where
  key : Option KeyStr
  code : Option String
  message : Option String
deriving DecidableEq

/-- A `DeleteObjects` response body. -/
structure DeleteObjectsOutput where
  deleted : Option (List DeletedObject)
  errors : Option (List S3DeleteError)
deriving DecidableEq

/-- The post-retry outcome of one batch `DeleteObjects` call: a response
body, or a transport-level error (abstracted to its rendered message). -/
abbrev DeleteObjectsRes := Except Err DeleteObjectsOutput

/-- `BulkDeleteError`: the four-way bulk delete outcome.  The `failures`
hash map is modelled as an association list with insert-or-replace
semantics. -/
structure BulkDeleteError where
  error : Option Err
  successes : List RPath
  failures : List (RPath × DeleteFailure)
  unattempted : List RPath
deriving DecidableEq

/-- `HashMap::insert` on the association-list model of `failures`:
replaces the entry of an existing key, otherwise appends. -/
def insertFailure (p : RPath) (f : DeleteFailure) :
    List (RPath × DeleteFailure) → List (RPath × DeleteFailure)
  | [] => [(p, f)]
  | (q, g) :: rest => if q = p then (p, f) :: rest else (q, g) :: insertFailure p f rest

/-- The accumulator of `bulk_delete`'s batch loop. -/
structure BDState where
  error : Option Err
  successes : List RPath
  failures : List (RPath × DeleteFailure)
  unattempted : List RPath
deriving DecidableEq

/-- The loop entry state: no error, empty collections. -/
def initBDState : BDState :=
  { error := none, successes := [], failures := [], unattempted := [] }

/-- Fold the `<Deleted>` entries of a response into the state: each
reported key is translated back to a relative path (the `expect` panic on
a key that does not carry the prefix is `none`) and recorded as a
success. -/
def foldDeleted (pre : RPath) (st : BDState) : List DeletedObject → Option BDState
  | [] => some st
  | d :: rest =>
    match d.key with
    | none => foldDeleted pre st rest
    | some k =>
      match relative_path pre k with
      | none => none
      | some p => foldDeleted pre { st with successes := st.successes ++ [p] } rest

/-- Fold the `<Error>` entries: a `NoSuchKey` code counts as a success
(delete is idempotent); any other code — or a missing one — records a
`DeleteFailure` under the path. -/
def foldErrors (pre : RPath) (st : BDState) : List S3DeleteError → Option BDState
  | [] => some st
  | e :: rest =>
    match e.key with
    | none => foldErrors pre st rest
    | some k =>
      match relative_path pre k with
      | none => none
      | some p =>
        match e.code with
        | some code =>
          if code = "NoSuchKey" then
            foldErrors pre { st with successes := st.successes ++ [p] } rest
          else
            let f : DeleteFailure := { code := some code, message := e.message, error := none }
            foldErrors pre { st with failures := insertFailure p f st.failures } rest
        | none =>
          let f : DeleteFailure := { code := none, message := e.message, error := none }
          foldErrors pre { st with failures := insertFailure p f st.failures } rest

/-- Process one batch: skip it (marking its keys unattempted) when a prior
batch recorded a transport error; otherwise fold the response, or record
the first transport error and mark the batch unattempted. -/
def processBatch (pre : RPath) (st : BDState) (chunk : List RPath)
    (res : DeleteObjectsRes) : Option BDState :=
  if st.error.isSome then some { st with unattempted := st.unattempted ++ chunk }
  else
    match res with
    | .error e => some { st with error := some e, unattempted := st.unattempted ++ chunk }
    | .ok out => do
      let st1 ← foldDeleted pre st (out.deleted.getD [])
      foldErrors pre st1 (out.errors.getD [])

/-- The batch loop of `bulk_delete` over the chunks of the input;
`respond` gives the post-retry outcome of the `DeleteObjects` call for a
given batch of paths. -/
def bulkLoop (pre : RPath) (respond : List RPath → DeleteObjectsRes) :
    List (List RPath) → BDState → Option BDState
  | [], st => some st
  | chunk :: rest, st => do
    let st' ← processBatch pre st chunk (respond chunk)
    bulkLoop pre respond rest st'

/-- `slice::chunks(n)` on lists: consecutive chunks of `n` elements, the
last possibly shorter.  `fuel` bounds the recursion (structural for
executability); `l.length` steps always suffice when `n > 0`. -/
def chunksGo {α : Type} (n : Nat) : Nat → List α → List (List α)
  | _, [] => []
  | 0, _ => []
  | fuel + 1, l => l.take n :: chunksGo n fuel (l.drop n)

/-- `paths.chunks(MAX_NUM_KEYS)`. -/
def chunksOf {α : Type} (n : Nat) (l : List α) : List (List α) :=
  chunksGo n l.length l

/-- `MAX_NUM_KEYS` under `cfg(test)`. -/
def MAX_NUM_KEYS_TEST : Nat := 3

/-- `MAX_NUM_KEYS` in production builds. -/
def MAX_NUM_KEYS_PROD : Nat := 1000

/-- `bulk_delete`: batch the paths, issue the batch calls strictly in
order with fail-fast skipping after a transport error, fold the per-key
outcomes, and return `Ok` only when no transport error and no per-key
failure was recorded.  The outer `none` models the `relative_path` panic
on a response key that does not carry the prefix. -/
def bulk_delete (pre : RPath) (maxNumKeys : Nat)
    (respond : List RPath → DeleteObjectsRes) (paths : List RPath) :
    Option (Except BulkDeleteError Unit) := do
  let st ← bulkLoop pre respond (chunksOf maxNumKeys paths) initBDState
  if st.error.isNone && st.failures.isEmpty then
    some (.ok ())
  else
    some (.error { error := st.error, successes := st.successes,
                   failures := st.failures, unattempted := st.unattempted })

/-- The remote's verdict for one key of an attempted batch: reported
deleted, or reported as an error with a code and message. -/
inductive KeyOutcome where
  | deleted
  | errored (code : Option String) (message : Option String)
deriving DecidableEq

/-- Whether a verdict folds into a per-key failure (everything except a
deletion and a `NoSuchKey` error). -/
def isFailureOutcome : KeyOutcome → Bool
  | .deleted => false
  | .errored (some code) _ => decide (code ≠ "NoSuchKey")
  | .errored none _ => true

/-- The error code a verdict reports. -/
def codeOfOutcome : KeyOutcome → Option String
  | .deleted => none
  | .errored c _ => c

/-- The error message a verdict reports. -/
def msgOfOutcome : KeyOutcome → Option String
  | .deleted => none
  | .errored _ m => m

/-- The response body of a well-behaved remote for one batch: every key of
the batch is reported exactly once, under the full key it was addressed
with. -/
def mkOutput (pre : RPath) (outcome : RPath → KeyOutcome) (chunk : List RPath) :
    DeleteObjectsOutput :=
  { deleted := some ((chunk.filter (fun p => decide (outcome p = .deleted))).map
      (fun p => { key := some (key pre p) })),
    errors := some ((chunk.filter (fun p => decide (outcome p ≠ .deleted))).map
      (fun p => { key := some (key pre p), code := codeOfOutcome (outcome p),
                  message := msgOfOutcome (outcome p) })) }

/-- A well-behaved remote built from a per-batch transport verdict and
per-key verdicts. -/
def mkRespond (pre : RPath) (outcome : RPath → KeyOutcome)
    (trans : List RPath → Option Err) : List RPath → DeleteObjectsRes :=
  fun chunk =>
    match trans chunk with
    | some e => .error e
    | none => .ok (mkOutput pre outcome chunk)

/-- A single-component relative path. -/
def path1 (s : String) : RPath := [s.toList]

/-- The seven keys of the bulk delete partial-failure scenario. -/
def scenarioPaths : List RPath :=
  [path1 ("foo"), path1 ("bar"), path1 ("baz"), path1 ("foobar"),
   path1 ("foobaz"), path1 ("barfoo"), path1 ("barbaz")]

/-- First batch response of the scenario: `foo` deleted, `bar` NoSuchKey,
`baz` AccessDenied. -/
def scenarioBatch1 : DeleteObjectsOutput :=
  { deleted := some [{ key := some (("foo").toList) }],
    errors := some
      [{ key := some (("bar").toList), code := some ("NoSuchKey"),
         message := some ("The specified key does not exist") },
       { key := some (("baz").toList), code := some ("AccessDenied"),
         message := some ("Access Denied") }] }

/-- The transport error of the scenario's second batch call, rendered with
its code as the source's test asserts. -/
def scenarioTransportErr : Err := "unhandled error: MalformedXML"

/-- The scenario's remote: the first batch gets the partial response, the
second batch call fails outright. -/
def scenarioRespond : List RPath → DeleteObjectsRes :=
  fun chunk =>
    if chunk = [path1 ("foo"), path1 ("bar"), path1 ("baz")] then .ok scenarioBatch1
    else .error scenarioTransportErr

/-- Substring test on rendered error messages. -/
def strContains (s pat : String) : Bool :=
  (List.range (s.toList.length + 1)).any fun i =>
    decide ((s.toList.drop i).take pat.toList.length = pat.toList)

/-- Substring test on character lists. -/
def listContains (s pat : List Char) : Bool :=
  (List.range (s.length + 1)).any fun i =>
    decide ((s.drop i).take pat.length = pat)

/-- The `DeleteFailure` recorded for an errored verdict. -/
def mkFailureOf (o : KeyOutcome) : DeleteFailure :=
  { code := codeOfOutcome o, message := msgOfOutcome o, error := none }

/-- A key list with a duplicate spanning two batches (batch size 3). -/
def dupPaths : List RPath := [path1 ("a"), path1 ("b"), path1 ("c"), path1 ("a")]

/-- A remote that deletes every key of the first batch and fails the
second batch call outright. -/
def dupRespond : List RPath → DeleteObjectsRes :=
  mkRespond [] (fun _ => .deleted)
    (fun chunk => if chunk = [path1 ("a")] then some ("boom") else none)

/-- A concrete remote where every call succeeds (for concrete instances). -/
def mpRemoteOk : MultipartRemote :=
  { createRes := .ok (some ("upload-1")),
    uploadRes := fun _ => .ok (some ("etag")),
    completeRes := .ok (), abortRes := .ok () }

/-- A concrete remote whose part 2 upload fails permanently and whose
abort call also fails (for concrete instances). -/
def mpRemoteFail : MultipartRemote :=
  { createRes := .ok (some ("upload-1")),
    uploadRes := fun n => if n = 2 then .error ("part 2 failed") else .ok (some ("etag")),
    completeRes := .ok (), abortRes := .error ("abort failed") }

/-- A probe whose first attempt fails transiently and whose later attempts
succeed (for concrete instances). -/
def flakyProbe : Nat → Except (RetryErr Err) Unit :=
  fun n => if n = 0 then .error (.transient ("connection reset")) else .ok ()

theorem splitAux_no_slash (cs : KeyStr) (acc : Comp) (h : '/' ∉ cs) :
    splitAux cs acc = [acc ++ cs] := by
  induction cs generalizing acc with
  | nil => simp [splitAux]
  | cons c rest ih =>
    have hc : c ≠ '/' := by intro hc; exact h (hc ▸ List.mem_cons_self c rest)
    have hrest : '/' ∉ rest := fun hm => h (List.mem_cons_of_mem _ hm)
    simp [splitAux, hc, ih _ hrest]

theorem splitAux_append_slash (cs : KeyStr) (css : KeyStr) (acc : Comp) (h : '/' ∉ cs) :
    splitAux (cs ++ '/' :: css) acc = (acc ++ cs) :: splitAux css [] := by
  induction cs generalizing acc with
  | nil => simp [splitAux]
  | cons c rest ih =>
    have hc : c ≠ '/' := by intro hc; exact h (hc ▸ List.mem_cons_self c rest)
    have hrest : '/' ∉ rest := fun hm => h (List.mem_cons_of_mem _ hm)
    simp [splitAux, hc, ih _ hrest]

theorem renderPath_ne_nil (l : RPath) (hl : l ≠ []) (hwf : wfPath l) :
    renderPath l ≠ [] := by
  match l with
  | [c] =>
    have : wfComp c := hwf c (List.mem_singleton_self c)
    simpa [renderPath] using this.1
  | c :: c' :: rest =>
    simp [renderPath]

theorem splitAux_renderPath (l : RPath) (hl : l ≠ []) (hwf : wfPath l) :
    splitAux (renderPath l) [] = l := by
  induction l with
  | nil => exact absurd rfl hl
  | cons c rest ih =>
    have hc : wfComp c := hwf c (List.mem_cons_self c rest)
    match rest with
    | [] => simp [renderPath, splitAux_no_slash c [] hc.2.1]
    | c' :: rest' =>
      have hwf' : wfPath (c' :: rest') := fun x hx => hwf x (List.mem_cons_of_mem _ hx)
      rw [show renderPath (c :: c' :: rest') = c ++ '/' :: renderPath (c' :: rest') from rfl]
      rw [splitAux_append_slash c _ [] hc.2.1]
      simp [ih (List.cons_ne_nil c' rest') hwf']

/-- Rendering then raw-splitting a well-formed list, with a separator and
more text appended, yields the list followed by the split of the rest. -/
theorem splitAux_render_slash (l : RPath) (css : KeyStr) (hl : l ≠ []) (hwf : wfPath l) :
    splitAux (renderPath l ++ '/' :: css) [] = l ++ splitAux css [] := by
  induction l with
  | nil => exact absurd rfl hl
  | cons c rest ih =>
    have hc : wfComp c := hwf c (List.mem_cons_self c rest)
    match rest with
    | [] =>
      rw [show renderPath [c] = c from rfl, splitAux_append_slash c css [] hc.2.1]
      simp
    | c' :: rest' =>
      have hwf' : wfPath (c' :: rest') := fun x hx => hwf x (List.mem_cons_of_mem _ hx)
      rw [show renderPath (c :: c' :: rest') = c ++ '/' :: renderPath (c' :: rest') from rfl]
      rw [List.cons_append, ← List.cons_append, List.append_assoc,
        show ('/' :: renderPath (c' :: rest')) ++ '/' :: css =
          '/' :: (renderPath (c' :: rest') ++ '/' :: css) from rfl]
      rw [splitAux_append_slash c _ [] hc.2.1]
      rw [ih (List.cons_ne_nil c' rest') hwf']
      simp

/-- Raw round-trip at the string level: raw-splitting a rendered
well-formed component list recovers exactly the components. -/
theorem splitRaw_renderPath (l : RPath) (hwf : wfPath l) :
    splitRaw (renderPath l) = l := by
  match l with
  | [] => simp [renderPath, splitRaw]
  | c :: rest =>
    have hne := renderPath_ne_nil (c :: rest) (List.cons_ne_nil c rest) hwf
    rw [splitRaw, if_neg hne]
    exact splitAux_renderPath _ (List.cons_ne_nil c rest) hwf

/-- `components` normalization is the identity on a well-formed component
list, even with trailing droppable pieces (empty or `.`) appended — unless
the whole list is droppable pieces only, which must then be empty. -/
theorem normalizeSplit_clean_append (l : RPath) (hl : ∀ c ∈ l, c ≠ [] ∧ c ≠ ['.'])
    (junk : RPath) (hjunk : ∀ c ∈ junk, c = [] ∨ c = ['.'])
    (hhead : l ≠ [] ∨ junk = []) :
    normalizeSplit (l ++ junk) = l := by
  have hkeep : ∀ c ∈ l, keepComp c = true := by
    intro c hc
    have h := hl c hc
    simp [keepComp, List.isEmpty_iff, h.1, h.2]
  have hdrop : ∀ c ∈ junk, ¬ keepComp c = true := by
    intro c hc
    rcases hjunk c hc with h | h <;> simp [keepComp, h]
  match l with
  | [] =>
    rcases hhead with h | h
    · exact absurd rfl h
    · subst h; rfl
  | c :: rest =>
    have hc := hl c (List.mem_cons_self c rest)
    rw [List.cons_append, normalizeSplit, if_neg hc.2]
    rw [← List.cons_append, List.filter_append]
    rw [List.filter_eq_self.mpr hkeep]
    rw [List.filter_eq_nil_iff.mpr hdrop, List.append_nil]

/-- Splitting the key produced by joining a well-formed prefix and path
yields exactly the concatenated components: the trailing separator of the
empty-path case is eaten by `components` normalization and no other
droppable piece is ever produced. -/
theorem splitPath_key (pre p : RPath) (hpre : wfPath pre) (hp : wfPath p) :
    splitPath (key pre p) = pre ++ p := by
  have hclean : ∀ l : RPath, wfPath l → ∀ c ∈ l, c ≠ [] ∧ c ≠ ['.'] := by
    intro l hwf c hc
    exact ⟨(hwf c hc).1, (hwf c hc).2.2⟩
  match pre with
  | [] =>
    rw [key, if_pos rfl, splitPath, splitRaw_renderPath p hp]
    have := normalizeSplit_clean_append p (hclean p hp) [] (by simp) (Or.inr rfl)
    simpa using this
  | c0 :: pre' =>
    rw [key, if_neg (List.cons_ne_nil c0 pre'), splitPath]
    match p with
    | [] =>
      rw [show renderPath ([] : RPath) = [] from rfl]
      have hne : renderPath (c0 :: pre') ++ ['/'] ≠ [] := by simp
      rw [splitRaw, if_neg hne,
        splitAux_render_slash (c0 :: pre') [] (List.cons_ne_nil c0 pre') hpre]
      rw [show splitAux [] [] = [([] : Comp)] from rfl]
      rw [normalizeSplit_clean_append (c0 :: pre')
        (hclean _ hpre) [[]] (by simp) (Or.inl (List.cons_ne_nil c0 pre'))]
      simp
    | q0 :: p' =>
      have hne : renderPath (c0 :: pre') ++ '/' :: renderPath (q0 :: p') ≠ [] := by simp
      rw [splitRaw, if_neg hne,
        splitAux_render_slash (c0 :: pre') _ (List.cons_ne_nil c0 pre') hpre]
      rw [splitAux_renderPath (q0 :: p') (List.cons_ne_nil q0 p') hp]
      have hall : ∀ c ∈ (c0 :: pre') ++ (q0 :: p'), c ≠ [] ∧ c ≠ ['.'] := by
        intro c hc
        rcases List.mem_append.mp hc with h | h
        · exact hclean _ hpre c h
        · exact hclean _ hp c h
      have := normalizeSplit_clean_append ((c0 :: pre') ++ (q0 :: p')) hall [] (by simp)
        (Or.inr rfl)
      simpa using this

/-- For a non-empty path, even the raw `/`-split of the produced key is
exactly the concatenated components: the join inserts exactly one
separator, so no empty piece (doubled, leading or trailing separator)
appears in the key string. -/
theorem splitRaw_key (pre p : RPath) (hpre : wfPath pre) (hp : wfPath p) (hpn : p ≠ []) :
    splitRaw (key pre p) = pre ++ p := by
  match pre with
  | [] =>
    rw [key, if_pos rfl, splitRaw_renderPath p hp]
    simp
  | c0 :: pre' =>
    match p with
    | [] => exact absurd rfl hpn
    | q0 :: p' =>
      rw [key, if_neg (List.cons_ne_nil c0 pre')]
      have hne : renderPath (c0 :: pre') ++ '/' :: renderPath (q0 :: p') ≠ [] := by simp
      rw [splitRaw, if_neg hne,
        splitAux_render_slash (c0 :: pre') _ (List.cons_ne_nil c0 pre') hpre]
      rw [splitAux_renderPath (q0 :: p') (List.cons_ne_nil q0 p') hp]

/-- Key/path round trip: recovering the relative path from a produced key
returns the original path (for well-formed, i.e. normalized `.`-free,
components). -/
theorem relative_path_key (pre p : RPath) (hpre : wfPath pre) (hp : wfPath p) :
    relative_path pre (key pre p) = some p := by
  unfold relative_path
  rw [splitPath_key pre p hpre hp]
  rw [if_pos (List.prefix_append pre p)]
  simp

theorem md5Loop_eq (fuel : Nat) :
    ∀ consumed st : List Nat, st.length < fuel →
      md5Loop fuel consumed st = consumed ++ st := by
  induction fuel with
  | zero => intro consumed st h; omega
  | succ f ih =>
    intro consumed st h
    by_cases hst : st = []
    · subst hst; simp [md5Loop]
    · have hne : st.isEmpty = false := by simp [List.isEmpty_iff, hst]
      have hpos : 0 < st.length := List.length_pos.mpr hst
      have hchunk : MD5_CHUNK_SIZE = 1000000 := rfl
      have hlen : (st.drop MD5_CHUNK_SIZE).length < f := by
        rw [List.length_drop]; omega
      rw [md5Loop]
      simp only [hne, Bool.false_eq_true, if_false]
      rw [ih _ _ hlen, List.append_assoc, List.take_append_drop]

/-- C7: computing the digest via the streaming path (`compute_md5`,
reading in internal chunks of 1,000,000 bytes) consumes exactly the same
byte sequence as digesting the whole buffer at once (`md5_compute`), for
every buffer — in particular for buffers both smaller and larger than the
internal chunk size. -/
theorem claim7_compute_md5_streaming (buf : List Nat) :
    compute_md5 buf = md5_compute buf := by
  unfold compute_md5 md5_compute
  rw [md5Loop_eq _ _ _ (Nat.lt_succ_self _)]
  simp

/-- C10: for a non-empty range (`start < stop`, hence `stop ≥ 1` — the
implicit precondition of `get_slice`) the GET request carries the
inclusive header `bytes={start}-{stop - 1}` and the wrapping subtraction
agrees with the true one, while the empty range `0..0` makes the
subtraction underflow to `2^64 - 1`. -/
theorem claim10_get_range_header :
    (∀ (bucket : String) (pre path : RPath) (r : URange),
      r.start < r.stop → r.stop < USIZE_SIZE →
      create_get_object_request bucket pre path (some r) =
        { bucket := bucket, objectKey := key pre path,
          range := some ("bytes=" ++ toString r.start ++ "-" ++ toString (r.stop - 1)) }) ∧
    getRangeHeader ⟨0, 0⟩ =
      "bytes=" ++ toString (0 : Nat) ++ "-" ++ toString (USIZE_SIZE - 1) := by
  constructor
  · intro bucket pre path r h1 h2
    have hU : USIZE_SIZE = 18446744073709551616 := by norm_num [USIZE_SIZE]
    have hmod : (r.stop + USIZE_SIZE - 1) % USIZE_SIZE = r.stop - 1 := by
      rw [hU] at h2 ⊢; omega
    unfold create_get_object_request getRangeHeader
    simp only [Option.map_some']
    rw [hmod]
  · rfl

theorem claim10_witness :
    create_get_object_request ("bucket") [] (path1 ("obj")) (some ⟨2, 5⟩) =
      { bucket := "bucket", objectKey := key [] (path1 ("obj")),
        range := some ("bytes=" ++ toString (2 : Nat) ++ "-" ++ toString (4 : Nat)) } :=
  claim10_get_range_header.1 ("bucket") [] (path1 ("obj")) ⟨2, 5⟩ (by decide)
    (by norm_num [USIZE_SIZE])

/-- C6 counterexample: with the non-empty prefix `pre` and the relative
path `./foo` the produced key string is `pre/./foo` (`join` does not
normalize), but `strip_prefix` works over `Path::components`, which drops
the non-leading `.` piece — so the recovered path is `foo`, not the
original `./foo`, and the unconditional round trip asserted by the claim
fails. -/
theorem claim6_counterexample :
    relative_path (path1 ("pre")) (key (path1 ("pre")) [(".").toList, ("foo").toList]) =
      some [("foo").toList] ∧
    ([("foo").toList] : RPath) ≠ [(".").toList, ("foo").toList] :=
  ⟨rfl, by decide⟩

/-- C6 (amended): for prefixes and paths whose components are non-empty,
separator-free and not the `.` marker (i.e. normalized path components —
exactly what `Path::components` yields for a plain relative path),
recovering the relative path from the key produced by joining the prefix
with it returns exactly the original path; the key splits back into
exactly the prefix and path components; and for a non-empty path even the
raw `/`-split of the key has no empty piece — i.e. the join introduced no
double, leading, or trailing separator. -/
theorem claim6_key_path_roundtrip (pre p : RPath) (hpre : wfPath pre) (hp : wfPath p) :
    relative_path pre (key pre p) = some p ∧
      splitPath (key pre p) = pre ++ p ∧
      (p ≠ [] → ∀ c ∈ splitRaw (key pre p), c ≠ []) := by
  refine ⟨relative_path_key pre p hpre hp, splitPath_key pre p hpre hp, ?_⟩
  intro hpn c hc
  rw [splitRaw_key pre p hpre hp hpn] at hc
  rcases List.mem_append.mp hc with h | h
  · exact (hpre c h).1
  · exact (hp c h).1

theorem claim6_witness :
    relative_path (path1 ("indexes")) (key (path1 ("indexes")) (path1 ("foo"))) =
        some (path1 ("foo")) ∧
      splitPath (key (path1 ("indexes")) (path1 ("foo"))) =
        path1 ("indexes") ++ path1 ("foo") ∧
      (path1 ("foo") ≠ [] → ∀ c ∈ splitRaw (key (path1 ("indexes")) (path1 ("foo"))), c ≠ []) :=
  claim6_key_path_roundtrip (path1 ("indexes")) (path1 ("foo")) (by decide) (by decide)

theorem takeWhile_all {α : Type} (p : α → Bool) (l : List α) (h : ∀ x ∈ l, p x = true) :
    l.takeWhile p = l := by
  induction l with
  | nil => rfl
  | cons a l ih =>
    rw [List.takeWhile_cons, h a (List.mem_cons_self a l)]
    simp [ih fun x hx => h x (List.mem_cons_of_mem a hx)]

theorem takeWhile_append_stop {α : Type} (p : α → Bool) (l1 : List α) (a : α) (l2 : List α)
    (h1 : ∀ x ∈ l1, p x = true) (ha : p a = false) :
    (l1 ++ a :: l2).takeWhile p = l1 := by
  induction l1 with
  | nil => simp [List.takeWhile_cons, ha]
  | cons b l ih =>
    rw [List.cons_append, List.takeWhile_cons, h1 b (List.mem_cons_self b l)]
    simp [ih fun x hx => h1 x (List.mem_cons_of_mem b hx)]

theorem bucket_all_ne_slash (bucket : List Char) (hbs : '/' ∉ bucket) :
    ∀ x ∈ bucket, (decide (x ≠ '/')) = true := by
  intro x hx
  simp only [decide_eq_true_eq]
  intro he; subst he; exact hbs hx

theorem afterS3_sep (rest2 : List Char) :
    afterS3 (':' :: '/' :: '/' :: rest2) = some rest2 := by
  simp only [afterS3]
  rw [if_neg (by decide)]
  simp only [expectSep]
  rw [if_pos (by simp)]

theorem matchS3At_scheme (rest2 : List Char) :
    matchS3At ('s' :: '3' :: ':' :: '/' :: '/' :: rest2) = matchBucket rest2 := by
  simp only [matchS3At]
  rw [if_pos (by simp), afterS3_sep]
  rfl

theorem matchBucket_eq (rest2 bucket : List Char) (hb : bucket ≠ [])
    (htw : rest2.takeWhile (fun x => x ≠ '/') = bucket) :
    matchBucket rest2 =
      (match rest2.drop bucket.length with
       | '/' :: tail => some (bucket, tail.takeWhile (fun x => x ≠ '\n'))
       | _ => some (bucket, [])) := by
  unfold matchBucket
  simp only [htw]
  rw [if_neg (by simp [List.isEmpty_iff, hb])]

theorem matchS3At_bucket_path (bucket path : List Char) (hb : bucket ≠ [])
    (hbs : '/' ∉ bucket) (hpn : '\n' ∉ path) :
    matchS3At ('s' :: '3' :: ':' :: '/' :: '/' :: (bucket ++ '/' :: path)) =
      some (bucket, path) := by
  have htw : (bucket ++ '/' :: path).takeWhile (fun x => x ≠ '/') = bucket :=
    takeWhile_append_stop _ bucket '/' path (bucket_all_ne_slash bucket hbs) (by simp)
  have hdrop : (bucket ++ '/' :: path).drop bucket.length = '/' :: path :=
    List.drop_left bucket ('/' :: path)
  rw [matchS3At_scheme, matchBucket_eq _ bucket hb htw, hdrop]
  have hall : ∀ x ∈ path, (decide (x ≠ '\n')) = true := by
    intro x hx
    simp only [decide_eq_true_eq]
    intro he; subst he; exact hpn hx
  show some (bucket, path.takeWhile (fun x => x ≠ '\n')) = some (bucket, path)
  rw [takeWhile_all _ path hall]

theorem matchS3At_bucket_only (bucket : List Char) (hb : bucket ≠ [])
    (hbs : '/' ∉ bucket) :
    matchS3At ('s' :: '3' :: ':' :: '/' :: '/' :: bucket) = some (bucket, []) := by
  have htw : bucket.takeWhile (fun x => x ≠ '/') = bucket :=
    takeWhile_all _ bucket (bucket_all_ne_slash bucket hbs)
  rw [matchS3At_scheme, matchBucket_eq _ bucket hb htw]
  rw [List.drop_length]

theorem matchS3At_bucket_slash (bucket : List Char) (hb : bucket ≠ [])
    (hbs : '/' ∉ bucket) :
    matchS3At ('s' :: '3' :: ':' :: '/' :: '/' :: (bucket ++ ['/'])) =
      some (bucket, []) := by
  have htw : (bucket ++ ['/']).takeWhile (fun x => x ≠ '/') = bucket :=
    takeWhile_append_stop _ bucket '/' [] (bucket_all_ne_slash bucket hbs) (by simp)
  have hdrop : (bucket ++ ['/']).drop bucket.length = ['/'] :=
    List.drop_left bucket ['/']
  rw [matchS3At_scheme, matchBucket_eq _ bucket hb htw, hdrop]
  rfl

theorem parse_s3_uri_here (cs : List Char) (r : List Char × List Char)
    (h : matchS3At cs = some r) : parse_s3_uri cs = some r := by
  match cs with
  | [] => simpa [parse_s3_uri] using h
  | c :: rest => simp [parse_s3_uri, h]

theorem matchS3At_no_s3 (cs : List Char) (h : cs.take 2 ≠ ['s', '3']) :
    matchS3At cs = none := by
  match cs with
  | [] => rfl
  | [c] => rfl
  | c1 :: c2 :: rest =>
    have hns : ¬(c1 = 's' ∧ c2 = '3') := by
      rintro ⟨rfl, rfl⟩
      exact h (by simp)
    simp [matchS3At, hns]

theorem parse_s3_uri_no_s3 (cs : List Char)
    (h : ∀ i, ((cs.drop i).take 2 : List Char) ≠ ['s', '3']) :
    parse_s3_uri cs = none := by
  induction cs with
  | nil => rfl
  | cons c rest ih =>
    have h0 := matchS3At_no_s3 (c :: rest) (by simpa using h 0)
    have hrec := ih fun i => by simpa using h (i + 1)
    simp [parse_s3_uri, h0, hrec]

theorem listContains_false_forall (s pat : List Char) (hpat : pat ≠ [])
    (h : listContains s pat = false) : ∀ i, (s.drop i).take pat.length ≠ pat := by
  intro i he
  by_cases hi : i ≤ s.length
  · have hall := List.any_eq_false.mp h
    have := hall i (List.mem_range.mpr (by omega))
    simp only [decide_eq_true_eq] at this
    exact this he
  · have hdrop : s.drop i = [] := List.drop_eq_nil_of_le (by omega)
    rw [hdrop] at he
    simp at he
    exact hpat he

/-- C8 counterexample: the regex `s3(\+[^:]+)?://...` is searched
unanchored, so the address `xs3://bucket` — whose scheme is `xs3`, not the
expected `s3` scheme — still matches at offset 1 and parses to the bucket,
where the claim asserts that every address without the expected s3 scheme
yields no match. -/
theorem claim8_counterexample :
    parse_s3_uri (("xs3://bucket").toList) ≠ none ∧
    parse_s3_uri (("xs3://bucket").toList) = some ((("bucket").toList), []) :=
  ⟨by decide, by decide⟩

/-- C8 (amended): `s3://bucket/path/to/object` parses to the bucket and
the path (for any separator-free non-empty bucket and any newline-free
path); `s3://bucket/` and `s3://bucket` parse to the bucket and the empty
path; and — the regex search being unanchored, so that an address merely
containing `s3://` at any position still matches (for example
`xs3://bucket`) — an address that nowhere contains the `s3` scheme
introducer yields no match. -/
theorem claim8_parse_s3_uri :
    (∀ bucket path : List Char, bucket ≠ [] → '/' ∉ bucket → '\n' ∉ path →
      parse_s3_uri (['s', '3', ':', '/', '/'] ++ bucket ++ '/' :: path) =
        some (bucket, path)) ∧
    (∀ bucket : List Char, bucket ≠ [] → '/' ∉ bucket →
      parse_s3_uri (['s', '3', ':', '/', '/'] ++ bucket ++ ['/']) = some (bucket, []) ∧
      parse_s3_uri (['s', '3', ':', '/', '/'] ++ bucket) = some (bucket, [])) ∧
    (∀ uri : List Char, listContains uri (['s', '3']) = false →
      parse_s3_uri uri = none) := by
  refine ⟨?_, ?_, ?_⟩
  · intro bucket path hb hbs hpn
    exact parse_s3_uri_here _ _ (matchS3At_bucket_path bucket path hb hbs hpn)
  · intro bucket hb hbs
    constructor
    · exact parse_s3_uri_here _ _ (matchS3At_bucket_slash bucket hb hbs)
    · exact parse_s3_uri_here _ _ (matchS3At_bucket_only bucket hb hbs)
  · intro uri h
    exact parse_s3_uri_no_s3 uri
      (listContains_false_forall uri ['s', '3'] (by simp) h)

theorem claim8_witness :
    parse_s3_uri (("s3://bucket/path/to/object").toList) =
        some ((("bucket").toList), (("path/to/object").toList)) ∧
      parse_s3_uri (("s3://bucket/").toList) = some ((("bucket").toList), []) ∧
      parse_s3_uri (("s3://bucket").toList) = some ((("bucket").toList), []) ∧
      parse_s3_uri (("ram://path/to/file").toList) = none := by
  refine ⟨?_, ?_, ?_, ?_⟩
  · have h := claim8_parse_s3_uri.1 (("bucket").toList) (("path/to/object").toList)
      (by decide) (by decide) (by decide)
    have heq : ("s3://bucket/path/to/object").toList =
        ['s', '3', ':', '/', '/'] ++ (("bucket").toList) ++
          '/' :: (("path/to/object").toList) := by decide
    rw [heq]; exact h
  · have h := (claim8_parse_s3_uri.2.1 (("bucket").toList) (by decide) (by decide)).1
    have heq : ("s3://bucket/").toList =
        ['s', '3', ':', '/', '/'] ++ (("bucket").toList) ++ ['/'] := by decide
    rw [heq]; exact h
  · have h := (claim8_parse_s3_uri.2.1 (("bucket").toList) (by decide) (by decide)).2
    have heq : ("s3://bucket").toList =
        ['s', '3', ':', '/', '/'] ++ (("bucket").toList) := by decide
    rw [heq]; exact h
  · exact claim8_parse_s3_uri.2.2 (("ram://path/to/file").toList) (by decide)

theorem chunkRangeGo_nil (stop S fuel start : Nat) (h : ¬ start < stop) :
    chunkRangeGo stop S fuel start = [] := by
  cases fuel with
  | zero => rfl
  | succ f => simp [chunkRangeGo, h]

theorem chunkRangeGo_cons (stop S fuel start : Nat) (h : start < stop) :
    chunkRangeGo stop S (fuel + 1) start =
      ⟨start, min (start + S) stop⟩ :: chunkRangeGo stop S fuel (start + S) := by
  simp [chunkRangeGo, h]

theorem chunkRangeGo_mem (stop S : Nat) (hS : 0 < S) (fuel : Nat) :
    ∀ start, stop - start ≤ fuel →
      ∀ r ∈ chunkRangeGo stop S fuel start,
        r.stop = min (r.start + S) stop ∧ start ≤ r.start ∧ r.start < stop := by
  induction fuel with
  | zero =>
    intro start h r hr
    rw [chunkRangeGo_nil _ _ _ _ (by omega)] at hr
    simp at hr
  | succ f ih =>
    intro start h r hr
    by_cases hlt : start < stop
    · rw [chunkRangeGo_cons _ _ _ _ hlt] at hr
      rcases List.mem_cons.mp hr with rfl | hr'
      · exact ⟨rfl, Nat.le_refl _, hlt⟩
      · have := ih (start + S) (by omega) r hr'
        exact ⟨this.1, by omega, this.2.2⟩
    · rw [chunkRangeGo_nil _ _ _ _ hlt] at hr
      simp at hr

theorem chunkRangeGo_head (stop S fuel start : Nat) (h : start < stop)
    (hfuel : stop - start ≤ fuel) :
    (chunkRangeGo stop S fuel start).head? = some ⟨start, min (start + S) stop⟩ := by
  cases fuel with
  | zero => omega
  | succ f => rw [chunkRangeGo_cons _ _ _ _ h]; rfl

theorem chunkRangeGo_ne_nil (stop S fuel start : Nat) (h : start < stop)
    (hfuel : stop - start ≤ fuel) :
    chunkRangeGo stop S fuel start ≠ [] := by
  cases fuel with
  | zero => omega
  | succ f => rw [chunkRangeGo_cons _ _ _ _ h]; simp

theorem chunkRangeGo_chain (stop S : Nat) (hS : 0 < S) (fuel : Nat) :
    ∀ start, stop - start ≤ fuel →
      List.Chain' (fun a b : URange => a.stop = b.start)
        (chunkRangeGo stop S fuel start) := by
  induction fuel with
  | zero =>
    intro start h
    rw [chunkRangeGo_nil _ _ _ _ (by omega)]
    exact List.chain'_nil
  | succ f ih =>
    intro start h
    by_cases hlt : start < stop
    · rw [chunkRangeGo_cons _ _ _ _ hlt]
      apply List.Chain'.cons'
      · exact ih (start + S) (by omega)
      · intro y hy
        by_cases hlt2 : start + S < stop
        · rw [chunkRangeGo_head stop S f (start + S) hlt2 (by omega)] at hy
          have hy' : (⟨start + S, min (start + S + S) stop⟩ : URange) = y := by
            simpa [Option.mem_def] using hy
          subst hy'
          show min (start + S) stop = start + S
          omega
        · rw [chunkRangeGo_nil _ _ _ _ hlt2] at hy
          simp at hy
    · rw [chunkRangeGo_nil _ _ _ _ hlt]
      exact List.chain'_nil

theorem chunkRangeGo_last (stop S : Nat) (hS : 0 < S) (fuel : Nat) :
    ∀ start, stop - start ≤ fuel → start < stop →
      (chunkRangeGo stop S fuel start).getLast?.map URange.stop = some stop := by
  induction fuel with
  | zero => intro start h hlt; omega
  | succ f ih =>
    intro start h hlt
    rw [chunkRangeGo_cons _ _ _ _ hlt]
    by_cases hlt2 : start + S < stop
    · have hne := chunkRangeGo_ne_nil stop S f (start + S) hlt2 (by omega)
      obtain ⟨t0, ts, ht⟩ := List.exists_cons_of_ne_nil hne
      rw [ht, List.getLast?_cons_cons, ← ht]
      exact ih (start + S) (by omega) hlt2
    · rw [chunkRangeGo_nil _ _ _ _ hlt2]
      show some (min (start + S) stop) = some stop
      congr 1
      omega

theorem chunkRangeGo_cover (stop S : Nat) (hS : 0 < S) (fuel : Nat) :
    ∀ start, stop - start ≤ fuel → ∀ x,
      (start ≤ x ∧ x < stop) ↔
        ∃ r ∈ chunkRangeGo stop S fuel start, r.start ≤ x ∧ x < r.stop := by
  induction fuel with
  | zero =>
    intro start h x
    rw [chunkRangeGo_nil _ _ _ _ (by omega)]
    simp
    omega
  | succ f ih =>
    intro start h x
    by_cases hlt : start < stop
    · rw [chunkRangeGo_cons _ _ _ _ hlt]
      constructor
      · rintro ⟨hx1, hx2⟩
        by_cases hx3 : x < min (start + S) stop
        · exact ⟨⟨start, min (start + S) stop⟩, List.mem_cons_self _ _, hx1, hx3⟩
        · have hge : start + S ≤ x := by omega
          rcases (ih (start + S) (by omega) x).mp ⟨hge, hx2⟩ with ⟨r, hr, hxr⟩
          exact ⟨r, List.mem_cons_of_mem _ hr, hxr⟩
      · rintro ⟨r, hr, hxr⟩
        rcases List.mem_cons.mp hr with rfl | hr'
        · simp only at hxr
          omega
        · have hmem := chunkRangeGo_mem stop S hS f (start + S) (by omega) r hr'
          have h1 := hmem.1
          have h2 := hmem.2.1
          have h3 := hmem.2.2
          omega
    · rw [chunkRangeGo_nil _ _ _ _ hlt]
      simp
      omega

theorem chain_stops_le (rs : List URange)
    (hchain : List.Chain' (fun a b : URange => a.stop = b.start) rs)
    (hpos : ∀ r ∈ rs, r.start ≤ r.stop) :
    ∀ j i (hi : i < rs.length) (hj : j < rs.length), i < j →
      (rs.get ⟨i, hi⟩).stop ≤ (rs.get ⟨j, hj⟩).start := by
  intro j
  induction j with
  | zero => intro i hi hj hij; omega
  | succ k ihk =>
    intro i hi hj hij
    have hchainIdx := List.chain'_iff_get.mp hchain
    have hstep : (rs.get ⟨k, by omega⟩).stop = (rs.get ⟨k + 1, hj⟩).start := by
      have := hchainIdx k (by omega)
      exact this
    by_cases hik : i < k
    · have h1 := ihk i hi (by omega) hik
      have h3 := hpos _ (List.get_mem rs k (by omega))
      omega
    · have heq : i = k := by omega
      subst heq
      omega

theorem parts_get (payload : List Nat) (rs : List URange) (i : Nat)
    (hi : i < (rs.enum.map fun ir =>
      ({ part_number := ir.1 + 1, range := ir.2,
         md5 := compute_md5 (range_byte_stream payload ir.2) } : Part)).length) :
    ((rs.enum.map fun ir =>
      ({ part_number := ir.1 + 1, range := ir.2,
         md5 := compute_md5 (range_byte_stream payload ir.2) } : Part)).get ⟨i, hi⟩) =
      { part_number := i + 1, range := rs.get ⟨i, by simpa using hi⟩,
        md5 := compute_md5 (range_byte_stream payload (rs.get ⟨i, by simpa using hi⟩)) } := by
  simp [List.get_eq_getElem, List.getElem_map, List.getElem_enum]

theorem chunkRangeGo_getElem_zero (stop S fuel start : Nat) (h : start < stop)
    (h0 : 0 < (chunkRangeGo stop S fuel start).length) :
    (chunkRangeGo stop S fuel start)[0].start = start := by
  cases fuel with
  | zero => simp [chunkRangeGo] at h0
  | succ f => simp [chunkRangeGo_cons _ _ _ _ h]

theorem chunkRangeGo_getElem_last (stop S : Nat) (hS : 0 < S) (fuel start : Nat)
    (hfuel : stop - start ≤ fuel) (h : start < stop)
    (hn : (chunkRangeGo stop S fuel start).length - 1 <
      (chunkRangeGo stop S fuel start).length) :
    (chunkRangeGo stop S fuel start)[(chunkRangeGo stop S fuel start).length - 1].stop
      = stop := by
  have hlast := chunkRangeGo_last stop S hS fuel start hfuel h
  rw [List.getLast?_eq_getElem?, List.getElem?_eq_getElem hn] at hlast
  simpa using hlast

/-- C4: for every total length L > 0 and chunk size S > 0, the parts built
by `create_multipart_requests` are 1-based and densely numbered, their
ranges start at 0, end at L, are contiguous (each range's stop is the
next range's start), each of size S except possibly the last (size ≤ S,
always positive), pairwise non-overlapping, and their union covers
exactly [0, L); for L = 0 the range split is empty. -/
theorem claim4_multipart_ranges :
    (∀ (payload : List Nat) (L S : Nat), 0 < L → 0 < S →
      ∃ ps : List Part, create_multipart_requests payload L S = some ps ∧
        ps ≠ [] ∧
        (∀ i (hi : i < ps.length), (ps.get ⟨i, hi⟩).part_number = i + 1) ∧
        (∀ h0 : 0 < ps.length, (ps.get ⟨0, h0⟩).range.start = 0) ∧
        (∀ hn : 0 < ps.length,
          (ps.get ⟨ps.length - 1, by omega⟩).range.stop = L) ∧
        List.Chain' (fun a b : Part => a.range.stop = b.range.start) ps ∧
        (∀ i (hi : i < ps.length),
          (i + 1 < ps.length →
            (ps.get ⟨i, hi⟩).range.stop - (ps.get ⟨i, hi⟩).range.start = S) ∧
          (ps.get ⟨i, hi⟩).range.stop - (ps.get ⟨i, hi⟩).range.start ≤ S ∧
          0 < (ps.get ⟨i, hi⟩).range.stop - (ps.get ⟨i, hi⟩).range.start) ∧
        (∀ i j (hi : i < ps.length) (hj : j < ps.length), i < j →
          (ps.get ⟨i, hi⟩).range.stop ≤ (ps.get ⟨j, hj⟩).range.start) ∧
        (∀ x, x < L ↔ ∃ p ∈ ps, p.range.start ≤ x ∧ x < p.range.stop)) ∧
    (∀ S', chunk_range ⟨0, 0⟩ S' = []) := by
  constructor
  · intro payload L S hL hS
    have hfuel : L - 0 ≤ L := by omega
    have hmem : ∀ r ∈ chunkRangeGo L S L 0,
        r.stop = min (r.start + S) L ∧ 0 ≤ r.start ∧ r.start < L :=
      chunkRangeGo_mem L S hS L 0 hfuel
    have hchainR : List.Chain' (fun a b : URange => a.stop = b.start)
        (chunkRangeGo L S L 0) :=
      chunkRangeGo_chain L S hS L 0 hfuel
    have hcoverR : ∀ x, (0 ≤ x ∧ x < L) ↔
        ∃ r ∈ chunkRangeGo L S L 0, r.start ≤ x ∧ x < r.stop :=
      chunkRangeGo_cover L S hS L 0 hfuel
    have hneR : chunkRangeGo L S L 0 ≠ [] :=
      chunkRangeGo_ne_nil L S L 0 hL hfuel
    have hlenR : 0 < (chunkRangeGo L S L 0).length := List.length_pos.mpr hneR
    have hposR : ∀ r ∈ chunkRangeGo L S L 0, r.start ≤ r.stop := by
      intro r hr
      have := hmem r hr
      omega
    refine ⟨(chunkRangeGo L S L 0).enum.map fun ir =>
      ({ part_number := ir.1 + 1, range := ir.2,
         md5 := compute_md5 (range_byte_stream payload ir.2) } : Part),
      ?_, ?_, ?_, ?_, ?_, ?_, ?_, ?_, ?_⟩
    · unfold create_multipart_requests
      rw [if_neg (by omega)]
      rfl
    · intro hps
      have := congrArg List.length hps
      simp at this
      exact hneR this
    · intro i hi
      rw [parts_get]
    · intro h0
      rw [parts_get, List.get_eq_getElem]
      exact chunkRangeGo_getElem_zero L S L 0 hL (by simpa using h0)
    · intro hn
      rw [parts_get, List.get_eq_getElem]
      have hlen : (List.map (fun ir =>
          ({ part_number := ir.1 + 1, range := ir.2,
             md5 := compute_md5 (range_byte_stream payload ir.2) } : Part))
          (chunkRangeGo L S L 0).enum).length = (chunkRangeGo L S L 0).length := by
        simp
      simp only [hlen]
      exact chunkRangeGo_getElem_last L S hS L 0 hfuel hL (by omega)
    · have henum : List.Chain' (fun a b : Nat × URange => a.2.stop = b.2.start)
          (chunkRangeGo L S L 0).enum := by
        have h1 : (chunkRangeGo L S L 0).enum.map Prod.snd = chunkRangeGo L S L 0 :=
          List.enum_map_snd _
        have h2 := hchainR
        rw [← h1] at h2
        exact (List.chain'_map _).mp h2
      exact (List.chain'_map _).mpr henum
    · intro i hi
      rw [parts_get]
      dsimp only
      have hil : i < (chunkRangeGo L S L 0).length := by simpa using hi
      have hmemi := hmem _ (List.get_mem (chunkRangeGo L S L 0) i hil)
      refine ⟨?_, by omega, by omega⟩
      intro hsucc
      have hil2 : i + 1 < (chunkRangeGo L S L 0).length := by simpa using hsucc
      have hchainIdx := List.chain'_iff_get.mp hchainR i (by omega)
      have hmemi2 := hmem _ (List.get_mem (chunkRangeGo L S L 0) (i + 1) hil2)
      have hstep : ((chunkRangeGo L S L 0).get ⟨i, hil⟩).stop =
          ((chunkRangeGo L S L 0).get ⟨i + 1, hil2⟩).start := hchainIdx
      omega
    · intro i j hi hj hij
      rw [parts_get, parts_get]
      exact chain_stops_le (chunkRangeGo L S L 0) hchainR hposR j i
        (by simpa using hi) (by simpa using hj) hij
    · intro x
      constructor
      · intro hx
        rcases (hcoverR x).mp ⟨Nat.zero_le x, hx⟩ with ⟨r, hr, hxr⟩
        rcases List.mem_iff_get.mp hr with ⟨⟨i, hil⟩, hget⟩
        have hip : i < ((chunkRangeGo L S L 0).enum.map fun ir =>
            ({ part_number := ir.1 + 1, range := ir.2,
               md5 := compute_md5 (range_byte_stream payload ir.2) } : Part)).length := by
          simpa using hil
        refine ⟨_, List.get_mem _ i hip, ?_⟩
        rw [parts_get]
        simp only [List.get_eq_getElem] at hget
        simpa [hget] using hxr
      · rintro ⟨p, hp, hxp⟩
        rcases List.mem_iff_get.mp hp with ⟨⟨i, hip⟩, hget⟩
        have hil : i < (chunkRangeGo L S L 0).length := by simpa using hip
        rw [parts_get] at hget
        apply ((hcoverR x).mpr ⟨(chunkRangeGo L S L 0).get ⟨i, hil⟩,
          List.get_mem (chunkRangeGo L S L 0) i hil, ?_⟩).2
        rw [← hget] at hxp
        simpa using hxp
  · intro S'
    rfl

theorem claim4_witness :
    ∃ ps : List Part, create_multipart_requests [] 11 3 = some ps ∧
      ps ≠ [] ∧
      (∀ i (hi : i < ps.length), (ps.get ⟨i, hi⟩).part_number = i + 1) ∧
      (∀ h0 : 0 < ps.length, (ps.get ⟨0, h0⟩).range.start = 0) ∧
      (∀ hn : 0 < ps.length,
        (ps.get ⟨ps.length - 1, by omega⟩).range.stop = 11) ∧
      List.Chain' (fun a b : Part => a.range.stop = b.range.start) ps ∧
      (∀ i (hi : i < ps.length),
        (i + 1 < ps.length →
          (ps.get ⟨i, hi⟩).range.stop - (ps.get ⟨i, hi⟩).range.start = 3) ∧
        (ps.get ⟨i, hi⟩).range.stop - (ps.get ⟨i, hi⟩).range.start ≤ 3 ∧
        0 < (ps.get ⟨i, hi⟩).range.stop - (ps.get ⟨i, hi⟩).range.start) ∧
      (∀ i j (hi : i < ps.length) (hj : j < ps.length), i < j →
        (ps.get ⟨i, hi⟩).range.stop ≤ (ps.get ⟨j, hj⟩).range.start) ∧
      (∀ x, x < 11 ↔ ∃ p ∈ ps, p.range.start ≤ x ∧ x < p.range.stop) :=
  claim4_multipart_ranges.1 [] 11 3 (by decide) (by decide)

theorem collectResults_error_of_mem {E A : Type} (l : List (Except E A))
    (h : ∃ x ∈ l, ∃ e, x = .error e) :
    ∃ e, collectResults l = .error e ∧ Except.error e ∈ l := by
  induction l with
  | nil => simp at h
  | cons x rest ih =>
    match x with
    | .error e => exact ⟨e, rfl, List.mem_cons_self _ _⟩
    | .ok a =>
      rcases h with ⟨y, hy, e, hye⟩
      rcases List.mem_cons.mp hy with rfl | hy'
      · exact absurd hye (by simp)
      · rcases ih ⟨y, hy', e, hye⟩ with ⟨e', hcol, hmem⟩
        refine ⟨e', ?_, List.mem_cons_of_mem _ hmem⟩
        show (collectResults rest).map (fun l => a :: l) = .error e'
        rw [hcol]
        rfl

/-- C2: whenever at least one part upload fails — `uploadRes` being each
part's post-retry outcome, so this covers permanent failures and exhausted
retries — `put_multi_part` returns a failing part's error, the issued
trace contains the abort-session call exactly once and no completion call,
and the result is unchanged under any outcome of the abort call itself,
which is logged and swallowed. -/
theorem claim2_multipart_abort (r : MultipartRemote) (payload : List Nat)
    (part_len total_len : Nat) (uploadId : String)
    (hcreate : r.createRes = .ok (some uploadId))
    (parts : List Part)
    (hparts : create_multipart_requests payload total_len part_len = some parts)
    (hfail : ∃ p ∈ parts, ∃ e, r.uploadRes p.part_number = .error e) :
    ∃ p ∈ parts, ∃ e, r.uploadRes p.part_number = .error e ∧
      put_multi_part r payload part_len total_len =
        some (.error e,
          S3Call.createMultipartUpload ::
            (parts.map fun q => S3Call.uploadPart q.part_number) ++
            [S3Call.abortMultipartUpload]) ∧
      (S3Call.createMultipartUpload ::
        (parts.map fun q => S3Call.uploadPart q.part_number) ++
        [S3Call.abortMultipartUpload]).count S3Call.abortMultipartUpload = 1 ∧
      (S3Call.createMultipartUpload ::
        (parts.map fun q => S3Call.uploadPart q.part_number) ++
        [S3Call.abortMultipartUpload]).count S3Call.completeMultipartUpload = 0 ∧
      ∀ ab : Except Err Unit,
        put_multi_part { r with abortRes := ab } payload part_len total_len =
          put_multi_part r payload part_len total_len := by
  have hwit : ∃ x ∈ parts.map (upload_part r), ∃ e, x = .error e := by
    rcases hfail with ⟨p, hp, e, he⟩
    refine ⟨upload_part r p, List.mem_map_of_mem _ hp, e, ?_⟩
    unfold upload_part
    rw [he]
  rcases collectResults_error_of_mem _ hwit with ⟨e', hcol, hmem⟩
  rcases List.mem_map.mp hmem with ⟨p', hp', hup⟩
  have hup' : r.uploadRes p'.part_number = .error e' := by
    unfold upload_part at hup
    match hres : r.uploadRes p'.part_number with
    | .error e'' => rw [hres] at hup; simpa using hup
    | .ok a => rw [hres] at hup; simp at hup
  have hcompute : ∀ rr : MultipartRemote, rr.createRes = .ok (some uploadId) →
      rr.uploadRes = r.uploadRes →
      put_multi_part rr payload part_len total_len =
        some (.error e',
          S3Call.createMultipartUpload ::
            (parts.map fun q => S3Call.uploadPart q.part_number) ++
            [S3Call.abortMultipartUpload]) := by
    intro rr hc hu
    have hcu : create_multipart_upload rr = .ok uploadId := by
      unfold create_multipart_upload
      rw [hc]
    have hcol' : collectResults (parts.map (upload_part rr)) = .error e' := by
      have : parts.map (upload_part rr) = parts.map (upload_part r) := by
        apply List.map_congr_left
        intro q _
        unfold upload_part
        rw [hu]
      rw [this, hcol]
    unfold put_multi_part
    rw [hcu, hparts]
    simp only [Option.map_some']
    rw [hcol']
  have hmapcount0 : ∀ c : S3Call, (∀ q : Part, S3Call.uploadPart q.part_number ≠ c) →
      (parts.map fun q => S3Call.uploadPart q.part_number).count c = 0 := by
    intro c hc
    rw [List.count_eq_zero]
    intro hmem'
    rcases List.mem_map.mp hmem' with ⟨q, _, hq⟩
    exact hc q hq
  refine ⟨p', hp', e', hup', hcompute r hcreate rfl, ?_, ?_, ?_⟩
  · have h0 := hmapcount0 S3Call.abortMultipartUpload (fun q => by simp)
    simp [List.count_cons, List.count_append, h0]
  · have h0 := hmapcount0 S3Call.completeMultipartUpload (fun q => by simp)
    simp [List.count_cons, List.count_append, h0]
  · intro ab
    rw [hcompute { r with abortRes := ab } hcreate rfl, hcompute r hcreate rfl]

theorem claim2_witness :
    ∃ p ∈ [({ part_number := 1, range := ⟨0, 3⟩, md5 := [0, 1, 2] } : Part),
           ({ part_number := 2, range := ⟨3, 4⟩, md5 := [3] } : Part)],
      ∃ e, mpRemoteFail.uploadRes p.part_number = .error e ∧
      put_multi_part mpRemoteFail [0, 1, 2, 3] 3 4 =
        some (.error e,
          S3Call.createMultipartUpload ::
            ([({ part_number := 1, range := ⟨0, 3⟩, md5 := [0, 1, 2] } : Part),
              ({ part_number := 2, range := ⟨3, 4⟩, md5 := [3] } : Part)].map
                fun q => S3Call.uploadPart q.part_number) ++
            [S3Call.abortMultipartUpload]) ∧
      (S3Call.createMultipartUpload ::
        ([({ part_number := 1, range := ⟨0, 3⟩, md5 := [0, 1, 2] } : Part),
          ({ part_number := 2, range := ⟨3, 4⟩, md5 := [3] } : Part)].map
            fun q => S3Call.uploadPart q.part_number) ++
        [S3Call.abortMultipartUpload]).count S3Call.abortMultipartUpload = 1 ∧
      (S3Call.createMultipartUpload ::
        ([({ part_number := 1, range := ⟨0, 3⟩, md5 := [0, 1, 2] } : Part),
          ({ part_number := 2, range := ⟨3, 4⟩, md5 := [3] } : Part)].map
            fun q => S3Call.uploadPart q.part_number) ++
        [S3Call.abortMultipartUpload]).count S3Call.completeMultipartUpload = 0 ∧
      ∀ ab : Except Err Unit,
        put_multi_part { mpRemoteFail with abortRes := ab } [0, 1, 2, 3] 3 4 =
          put_multi_part mpRemoteFail [0, 1, 2, 3] 3 4 :=
  claim2_multipart_abort mpRemoteFail [0, 1, 2, 3] 3 4 ("upload-1") rfl
    [({ part_number := 1, range := ⟨0, 3⟩, md5 := [0, 1, 2] } : Part),
     ({ part_number := 2, range := ⟨3, 4⟩, md5 := [3] } : Part)]
    (by decide)
    ⟨({ part_number := 2, range := ⟨3, 4⟩, md5 := [3] } : Part), by decide,
      ("part 2 failed"), rfl⟩

/-- C5: `put` computes the total length from the payload; when the
policy's part size for that length is at least the total length it issues
exactly one single-shot PutObject call (returning its post-retry outcome),
and otherwise it delegates to `put_multi_part` with that part size and the
total length. -/
theorem claim5_put_dispatch (r : MultipartRemote) (singleRes : Except Err Unit)
    (part_num_bytes : Nat → Nat) (payload : List Nat) :
    (payload.length ≤ part_num_bytes payload.length →
      put r singleRes part_num_bytes payload =
        some (singleRes, [S3Call.putObject])) ∧
    (part_num_bytes payload.length < payload.length →
      put r singleRes part_num_bytes payload =
        put_multi_part r payload (part_num_bytes payload.length) payload.length) := by
  constructor
  · intro h
    unfold put
    rw [if_pos h]
  · intro h
    unfold put
    rw [if_neg (by omega)]

theorem claim5_witness :
    put mpRemoteOk (.ok ()) (fun _ => 5) [0, 1, 2] = some (.ok (), [S3Call.putObject]) ∧
    put mpRemoteOk (.ok ()) (fun _ => 1) [0, 1, 2] =
      put_multi_part mpRemoteOk [0, 1, 2] 1 3 :=
  ⟨(claim5_put_dispatch mpRemoteOk (.ok ()) (fun _ => 5) [0, 1, 2]).1 (by decide),
   (claim5_put_dispatch mpRemoteOk (.ok ()) (fun _ => 1) [0, 1, 2]).2 (by decide)⟩

/-- C9 counterexample: `check_connectivity` does not route its probe
through the retry engine.  On a probe whose first attempt fails with a
transient error and whose second attempt succeeds, the source's
`check_connectivity` surfaces the error after exactly one call, whereas
the retry engine with the backend's configured 3 attempts succeeds. -/
theorem claim9_counterexample :
    (check_connectivity flakyProbe).1 = .error ("connection reset") ∧
    (check_connectivity flakyProbe).2 = 1 ∧
    retry S3_MAX_ATTEMPTS flakyProbe = .ok () ∧
    (check_connectivity flakyProbe).1 ≠ retry S3_MAX_ATTEMPTS flakyProbe := by
  refine ⟨rfl, rfl, rfl, ?_⟩
  intro h
  rw [show (check_connectivity flakyProbe).1 = Except.error ("connection reset") from rfl] at h
  rw [show retry S3_MAX_ATTEMPTS flakyProbe = Except.ok () from rfl] at h
  exact Except.noConfusion h

/-- C9 amended: `check_connectivity` issues its reachability probe (a
`ListObjectsV2` with `max_keys(1)`, reading no object data) exactly once
and outside the retry engine, so even a transient first-attempt failure is
surfaced directly instead of being retried. -/
theorem claim9_check_connectivity_no_retry {E : Type}
    (probe : Nat → Except (RetryErr E) Unit) (e : E)
    (h : probe 0 = .error (.transient e)) :
    check_connectivity probe = (.error e, 1) := by
  unfold check_connectivity
  rw [h]
  rfl

theorem claim9_witness :
    check_connectivity flakyProbe = (.error ("connection reset"), 1) :=
  claim9_check_connectivity_no_retry flakyProbe ("connection reset") rfl

/-- C1: the bulk delete partial-failure scenario.  With keys
[foo, bar, baz, foobar, foobaz, barfoo, barbaz], batch size 3, a first
batch response reporting foo deleted, bar NoSuchKey and baz AccessDenied,
and a second batch call failing with a transport error: the outcome's
successes are exactly [foo, bar] in order, failures map baz to an
AccessDenied failure, unattempted is exactly the four remaining keys in
order, and the top-level error is the transport error, whose message
contains its code. -/
theorem claim1_bulk_delete_scenario :
    bulk_delete [] MAX_NUM_KEYS_TEST scenarioRespond scenarioPaths =
      some (.error
        { error := some scenarioTransportErr,
          successes := [path1 ("foo"), path1 ("bar")],
          failures := [(path1 ("baz"),
            { code := some ("AccessDenied"), message := some ("Access Denied"),
              error := none })],
          unattempted := [path1 ("foobar"), path1 ("foobaz"), path1 ("barfoo"),
            path1 ("barbaz")] }) ∧
    strContains scenarioTransportErr ("MalformedXML") = true := by
  constructor
  · rfl
  · decide

theorem insertFailure_fresh (p : RPath) (f : DeleteFailure) :
    ∀ m : List (RPath × DeleteFailure), p ∉ m.map Prod.fst →
      insertFailure p f m = m ++ [(p, f)] := by
  intro m
  induction m with
  | nil => intro _; rfl
  | cons kv rest ih =>
    intro h
    obtain ⟨q, g⟩ := kv
    simp only [List.map_cons, List.mem_cons] at h
    push_neg at h
    simp only [insertFailure]
    rw [if_neg (fun he => h.1 he.symm), ih h.2]
    rfl

theorem foldDeleted_append (pre : RPath) (hpre : wfPath pre) :
    ∀ (l : List RPath) (st : BDState), (∀ p ∈ l, wfPath p) →
      foldDeleted pre st (l.map fun p => ({ key := some (key pre p) } : DeletedObject)) =
        some { st with successes := st.successes ++ l } := by
  intro l
  induction l with
  | nil =>
    intro st _
    simp [foldDeleted]
  | cons p rest ih =>
    intro st hwf
    simp only [List.map_cons, foldDeleted,
      relative_path_key pre p hpre (hwf p (List.mem_cons_self p rest))]
    rw [ih _ (fun q hq => hwf q (List.mem_cons_of_mem _ hq))]
    congr 1
    simp

theorem foldErrors_append (pre : RPath) (hpre : wfPath pre)
    (outcome : RPath → KeyOutcome) :
    ∀ (l : List RPath) (st : BDState), (∀ p ∈ l, wfPath p) → l.Nodup →
      (∀ p ∈ l, outcome p ≠ .deleted) →
      (∀ p ∈ l, p ∉ st.failures.map Prod.fst) →
      foldErrors pre st (l.map fun p =>
        ({ key := some (key pre p), code := codeOfOutcome (outcome p),
           message := msgOfOutcome (outcome p) } : S3DeleteError)) =
        some { st with
          successes := st.successes ++
            l.filter (fun p => !isFailureOutcome (outcome p)),
          failures := st.failures ++
            (l.filter fun p => isFailureOutcome (outcome p)).map
              (fun p => (p, mkFailureOf (outcome p))) } := by
  intro l
  induction l with
  | nil =>
    intro st _ _ _ _
    simp [foldErrors]
  | cons p rest ih =>
    intro st hwf hnd hnotdel hfresh
    have hwfp := hwf p (List.mem_cons_self p rest)
    have hndrest := (List.nodup_cons.mp hnd).2
    have hpnotin := (List.nodup_cons.mp hnd).1
    simp only [List.map_cons, foldErrors,
      relative_path_key pre p hpre hwfp]
    cases houtp : outcome p with
    | deleted => exact absurd houtp (hnotdel p (List.mem_cons_self p rest))
    | errored c m =>
      cases c with
      | some code =>
        simp only [show codeOfOutcome (KeyOutcome.errored (some code) m) = some code from rfl,
          show msgOfOutcome (KeyOutcome.errored (some code) m) = m from rfl]
        by_cases hnsk : code = "NoSuchKey"
        · subst hnsk
          rw [if_pos rfl]
          rw [ih { st with successes := st.successes ++ [p] }
            (fun q hq => hwf q (List.mem_cons_of_mem _ hq)) hndrest
            (fun q hq => hnotdel q (List.mem_cons_of_mem _ hq))
            (fun q hq => hfresh q (List.mem_cons_of_mem _ hq))]
          have hfo : isFailureOutcome (outcome p) = false := by
            rw [houtp]; simp [isFailureOutcome]
          rw [List.filter_cons_of_pos (by simp [hfo]),
            List.filter_cons_of_neg (by simp [hfo])]
          congr 1
          simp
        · rw [if_neg hnsk]
          have hfo : isFailureOutcome (outcome p) = true := by
            rw [houtp]; simp [isFailureOutcome, hnsk]
          rw [insertFailure_fresh p _ _ (hfresh p (List.mem_cons_self p rest))]
          rw [ih { st with failures := st.failures ++
              [(p, { code := some code, message := m, error := none })] }
            (fun q hq => hwf q (List.mem_cons_of_mem _ hq)) hndrest
            (fun q hq => hnotdel q (List.mem_cons_of_mem _ hq))
            (fun q hq => by
              simp only [List.map_append, List.mem_append]
              push_neg
              refine ⟨hfresh q (List.mem_cons_of_mem _ hq), ?_⟩
              simp only [List.map_cons, List.map_nil, List.mem_singleton]
              intro he
              exact absurd (he ▸ hq) hpnotin)]
          rw [List.filter_cons_of_neg (by simp [hfo]),
            List.filter_cons_of_pos (by simp [hfo])]
          congr 1
          simp only [List.map_cons]
          rw [List.append_assoc]
          congr 2
          simp [mkFailureOf, houtp, codeOfOutcome, msgOfOutcome]
      | none =>
        simp only [show codeOfOutcome (KeyOutcome.errored none m) = none from rfl,
          show msgOfOutcome (KeyOutcome.errored none m) = m from rfl]
        have hfo : isFailureOutcome (outcome p) = true := by
          rw [houtp]; simp [isFailureOutcome]
        rw [insertFailure_fresh p _ _ (hfresh p (List.mem_cons_self p rest))]
        rw [ih { st with failures := st.failures ++
            [(p, { code := none, message := m, error := none })] }
          (fun q hq => hwf q (List.mem_cons_of_mem _ hq)) hndrest
          (fun q hq => hnotdel q (List.mem_cons_of_mem _ hq))
          (fun q hq => by
            simp only [List.map_append, List.mem_append]
            push_neg
            refine ⟨hfresh q (List.mem_cons_of_mem _ hq), ?_⟩
            simp only [List.map_cons, List.map_nil, List.mem_singleton]
            intro he
            exact absurd (he ▸ hq) hpnotin)]
        rw [List.filter_cons_of_neg (by simp [hfo]),
          List.filter_cons_of_pos (by simp [hfo])]
        congr 1
        simp only [List.map_cons]
        rw [List.append_assoc]
        congr 2
        simp [mkFailureOf, houtp, codeOfOutcome, msgOfOutcome]

theorem processBatch_skip (pre : RPath) (st : BDState) (chunk : List RPath)
    (res : DeleteObjectsRes) (e0 : Err) (herr : st.error = some e0) :
    processBatch pre st chunk res =
      some { st with unattempted := st.unattempted ++ chunk } := by
  unfold processBatch
  rw [if_pos (by simp [herr])]

theorem processBatch_transport (pre : RPath) (st : BDState) (chunk : List RPath)
    (e : Err) (herr : st.error = none) :
    processBatch pre st chunk (.error e) =
      some { st with error := some e, unattempted := st.unattempted ++ chunk } := by
  unfold processBatch
  rw [if_neg (by simp [herr])]

theorem processBatch_ok (pre : RPath) (hpre : wfPath pre)
    (outcome : RPath → KeyOutcome) (chunk : List RPath) (st : BDState)
    (hwf : ∀ p ∈ chunk, wfPath p) (hnd : chunk.Nodup) (herr : st.error = none)
    (hfresh : ∀ p ∈ chunk, p ∉ st.failures.map Prod.fst) :
    processBatch pre st chunk (.ok (mkOutput pre outcome chunk)) =
      some { st with
        successes := st.successes ++
          (chunk.filter fun p => decide (outcome p = .deleted)) ++
          (chunk.filter fun p => decide (outcome p ≠ .deleted)).filter
            (fun p => !isFailureOutcome (outcome p)),
        failures := st.failures ++
          ((chunk.filter fun p => decide (outcome p ≠ .deleted)).filter
            fun p => isFailureOutcome (outcome p)).map
            (fun p => (p, mkFailureOf (outcome p))) } := by
  unfold processBatch
  rw [if_neg (by simp [herr])]
  show (foldDeleted pre st ((mkOutput pre outcome chunk).deleted.getD [])).bind
      (fun st1 => foldErrors pre st1 ((mkOutput pre outcome chunk).errors.getD [])) = _
  have hdel : (mkOutput pre outcome chunk).deleted.getD [] =
      (chunk.filter fun p => decide (outcome p = .deleted)).map
        (fun p => ({ key := some (key pre p) } : DeletedObject)) := rfl
  have herrs : (mkOutput pre outcome chunk).errors.getD [] =
      (chunk.filter fun p => decide (outcome p ≠ .deleted)).map
        (fun p => ({ key := some (key pre p), code := codeOfOutcome (outcome p),
                     message := msgOfOutcome (outcome p) } : S3DeleteError)) := rfl
  rw [hdel, herrs]
  rw [foldDeleted_append pre hpre _ st (fun q hq => hwf q (List.mem_filter.mp hq).1)]
  show foldErrors pre _ _ = _
  rw [foldErrors_append pre hpre outcome _
    { st with successes := st.successes ++
        (chunk.filter fun p => decide (outcome p = .deleted)) }
    (fun q hq => hwf q (List.mem_filter.mp hq).1)
    (List.Nodup.filter _ hnd)
    (fun q hq => of_decide_eq_true (List.mem_filter.mp hq).2)
    (fun q hq => hfresh q (List.mem_filter.mp hq).1)]

theorem chunksGo_join {α : Type} (n : Nat) (hn : 0 < n) :
    ∀ (fuel : Nat) (l : List α), l.length ≤ fuel → (chunksGo n fuel l).flatten = l := by
  intro fuel
  induction fuel with
  | zero =>
    intro l h
    have : l = [] := List.length_eq_zero.mp (by omega)
    subst this
    rfl
  | succ f ih =>
    intro l h
    match l with
    | [] => rfl
    | x :: xs =>
      show (List.take n (x :: xs) :: chunksGo n f (List.drop n (x :: xs))).flatten = x :: xs
      rw [List.flatten_cons]
      rw [ih _ (by simp at h ⊢; omega)]
      exact List.take_append_drop n (x :: xs)

theorem chunksOf_join {α : Type} (n : Nat) (hn : 0 < n) (l : List α) :
    (chunksOf n l).flatten = l :=
  chunksGo_join n hn l.length l (Nat.le_refl _)

set_option maxHeartbeats 16000000 in
theorem bulkLoop_invariant (pre : RPath) (hpre : wfPath pre)
    (outcome : RPath → KeyOutcome) (trans : List RPath → Option Err) :
    ∀ (chunks : List (List RPath)) (st : BDState) (processed : List RPath),
      (∀ chunk ∈ chunks, ∀ p ∈ chunk, wfPath p) →
      (processed ++ chunks.flatten).Nodup →
      (∀ p, (p ∈ st.successes ∨ p ∈ st.failures.map Prod.fst ∨ p ∈ st.unattempted)
        ↔ p ∈ processed) →
      (∀ p, ¬(p ∈ st.successes ∧ p ∈ st.failures.map Prod.fst)) →
      (∀ p, ¬(p ∈ st.successes ∧ p ∈ st.unattempted)) →
      (∀ p, ¬(p ∈ st.failures.map Prod.fst ∧ p ∈ st.unattempted)) →
      ∃ st' : BDState,
        bulkLoop pre (mkRespond pre outcome trans) chunks st = some st' ∧
        (∀ p, (p ∈ st'.successes ∨ p ∈ st'.failures.map Prod.fst ∨ p ∈ st'.unattempted)
          ↔ p ∈ processed ++ chunks.flatten) ∧
        (∀ p, ¬(p ∈ st'.successes ∧ p ∈ st'.failures.map Prod.fst)) ∧
        (∀ p, ¬(p ∈ st'.successes ∧ p ∈ st'.unattempted)) ∧
        (∀ p, ¬(p ∈ st'.failures.map Prod.fst ∧ p ∈ st'.unattempted)) ∧
        (st'.error = none ↔ (st.error = none ∧ ∀ chunk ∈ chunks, trans chunk = none)) ∧
        ((st.error = none ∧ ∀ chunk ∈ chunks, trans chunk = none) →
          (st'.failures = [] ↔ (st.failures = [] ∧
            ∀ p ∈ chunks.flatten, isFailureOutcome (outcome p) = false))) := by
  intro chunks
  induction chunks with
  | nil =>
    intro st processed hwf hnd hU hd1 hd2 hd3
    refine ⟨st, rfl, ?_, hd1, hd2, hd3, ?_, ?_⟩
    · intro p
      rw [show (([] : List (List RPath)).flatten) = [] from rfl, List.append_nil]
      exact hU p
    · simp
    · intro _
      simp
  | cons chunk rest ih =>
    intro st processed hwf hnd hU hd1 hd2 hd3
    have hndassoc : ((processed ++ chunk) ++ rest.flatten).Nodup := by
      rw [List.append_assoc]
      simpa using hnd
    have hsplit := List.nodup_append.mp (by simpa using hnd)
    have hsplit2 := List.nodup_append.mp hsplit.2.1
    have hCnodup : chunk.Nodup := hsplit2.1
    have hdisjPC : ∀ p ∈ chunk, p ∉ processed := by
      intro p hp hpP
      exact hsplit.2.2 hpP (List.mem_append.mpr (Or.inl hp))
    have hwfC : ∀ p ∈ chunk, wfPath p := hwf chunk (List.mem_cons_self _ _)
    have hwfR : ∀ c ∈ rest, ∀ p ∈ c, wfPath p :=
      fun c hc => hwf c (List.mem_cons_of_mem _ hc)
    cases herr0 : st.error with
    | some e0 =>
      have hloop : bulkLoop pre (mkRespond pre outcome trans) (chunk :: rest) st =
          bulkLoop pre (mkRespond pre outcome trans) rest
            { st with unattempted := st.unattempted ++ chunk } := by
        show (processBatch pre st chunk (mkRespond pre outcome trans chunk)).bind _ = _
        rw [processBatch_skip pre st chunk _ e0 herr0]
        rfl
      have hU1 : ∀ p, (p ∈ st.successes ∨ p ∈ st.failures.map Prod.fst ∨
          p ∈ st.unattempted ++ chunk) ↔ p ∈ processed ++ chunk := by
        intro p
        have h := hU p
        clear ih
        simp only [List.mem_append] at h ⊢
        tauto
      have hd2' : ∀ p, ¬(p ∈ st.successes ∧ p ∈ st.unattempted ++ chunk) := by
        rintro p ⟨hs, hu⟩
        rcases List.mem_append.mp hu with hu | hc
        · exact hd2 p ⟨hs, hu⟩
        · exact hdisjPC p hc ((hU p).mp (Or.inl hs))
      have hd3' : ∀ p, ¬(p ∈ st.failures.map Prod.fst ∧ p ∈ st.unattempted ++ chunk) := by
        rintro p ⟨hf, hu⟩
        rcases List.mem_append.mp hu with hu | hc
        · exact hd3 p ⟨hf, hu⟩
        · exact hdisjPC p hc ((hU p).mp (Or.inr (Or.inl hf)))
      obtain ⟨st', hloop', hU', h1', h2', h3', herr', hfail'⟩ :=
        ih { st with unattempted := st.unattempted ++ chunk } (processed ++ chunk)
          hwfR hndassoc hU1 hd1 hd2' hd3'
      rw [hloop]
      refine ⟨st', hloop', ?_, h1', h2', h3', ?_, ?_⟩
      · intro p
        rw [List.flatten_cons, ← List.append_assoc]
        exact hU' p
      · constructor
        · intro h'
          have h2 := (herr'.mp h').1
          simp [herr0] at h2
        · rintro ⟨habs, _⟩
          simp at habs
      · rintro ⟨habs, _⟩
        simp at habs
    | none =>
      cases htr : trans chunk with
      | some e =>
        have hresp : mkRespond pre outcome trans chunk = .error e := by
          unfold mkRespond
          rw [htr]
        have hloop : bulkLoop pre (mkRespond pre outcome trans) (chunk :: rest) st =
            bulkLoop pre (mkRespond pre outcome trans) rest
              { st with error := some e, unattempted := st.unattempted ++ chunk } := by
          show (processBatch pre st chunk (mkRespond pre outcome trans chunk)).bind _ = _
          rw [hresp, processBatch_transport pre st chunk e herr0]
          rfl
        have hU1 : ∀ p, (p ∈ st.successes ∨ p ∈ st.failures.map Prod.fst ∨
            p ∈ st.unattempted ++ chunk) ↔ p ∈ processed ++ chunk := by
          intro p
          have h := hU p
          clear ih
          simp only [List.mem_append] at h ⊢
          tauto
        have hd2' : ∀ p, ¬(p ∈ st.successes ∧ p ∈ st.unattempted ++ chunk) := by
          rintro p ⟨hs, hu⟩
          rcases List.mem_append.mp hu with hu | hc
          · exact hd2 p ⟨hs, hu⟩
          · exact hdisjPC p hc ((hU p).mp (Or.inl hs))
        have hd3' : ∀ p, ¬(p ∈ st.failures.map Prod.fst ∧ p ∈ st.unattempted ++ chunk) := by
          rintro p ⟨hf, hu⟩
          rcases List.mem_append.mp hu with hu | hc
          · exact hd3 p ⟨hf, hu⟩
          · exact hdisjPC p hc ((hU p).mp (Or.inr (Or.inl hf)))
        obtain ⟨st', hloop', hU', h1', h2', h3', herr', hfail'⟩ :=
          ih { st with error := some e, unattempted := st.unattempted ++ chunk }
            (processed ++ chunk) hwfR hndassoc hU1 hd1 hd2' hd3'
        rw [hloop]
        refine ⟨st', hloop', ?_, h1', h2', h3', ?_, ?_⟩
        · intro p
          rw [List.flatten_cons, ← List.append_assoc]
          exact hU' p
        · constructor
          · intro h'
            have h2 := (herr'.mp h').1
            simp at h2
          · rintro ⟨_, hall⟩
            have habs := hall chunk (List.mem_cons_self _ _)
            rw [htr] at habs
            simp at habs
        · rintro ⟨_, hall⟩
          have habs := hall chunk (List.mem_cons_self _ _)
          rw [htr] at habs
          simp at habs
      | none =>
        have hresp : mkRespond pre outcome trans chunk =
            .ok (mkOutput pre outcome chunk) := by
          unfold mkRespond
          rw [htr]
        have hfreshC : ∀ p ∈ chunk, p ∉ st.failures.map Prod.fst := by
          intro p hp hpf
          exact hdisjPC p hp ((hU p).mp (Or.inr (Or.inl hpf)))
        have hloop : bulkLoop pre (mkRespond pre outcome trans) (chunk :: rest) st =
            bulkLoop pre (mkRespond pre outcome trans) rest
              { st with
                successes := st.successes ++
                  (chunk.filter fun p => decide (outcome p = .deleted)) ++
                  (chunk.filter fun p => decide (outcome p ≠ .deleted)).filter
                    (fun p => !isFailureOutcome (outcome p)),
                failures := st.failures ++
                  ((chunk.filter fun p => decide (outcome p ≠ .deleted)).filter
                    fun p => isFailureOutcome (outcome p)).map
                    (fun p => (p, mkFailureOf (outcome p))) } := by
          show (processBatch pre st chunk (mkRespond pre outcome trans chunk)).bind _ = _
          rw [hresp, processBatch_ok pre hpre outcome chunk st hwfC hCnodup herr0 hfreshC]
          rfl
        have hABC : ∀ p : RPath, p ∈ chunk ↔
            (p ∈ chunk.filter (fun p => decide (outcome p = .deleted)) ∨
             p ∈ (chunk.filter fun p => decide (outcome p ≠ .deleted)).filter
               (fun p => !isFailureOutcome (outcome p)) ∨
             p ∈ (chunk.filter fun p => decide (outcome p ≠ .deleted)).filter
               (fun p => isFailureOutcome (outcome p))) := by
          intro p
          constructor
          · intro hp
            by_cases hdel : outcome p = .deleted
            · exact Or.inl (List.mem_filter.mpr ⟨hp, by simp [hdel]⟩)
            · by_cases hf : isFailureOutcome (outcome p)
              · exact Or.inr (Or.inr (List.mem_filter.mpr
                  ⟨List.mem_filter.mpr ⟨hp, by simp [hdel]⟩, by simp [hf]⟩))
              · exact Or.inr (Or.inl (List.mem_filter.mpr
                  ⟨List.mem_filter.mpr ⟨hp, by simp [hdel]⟩, by simp [hf]⟩))
          · rintro (h | h | h)
            · exact (List.mem_filter.mp h).1
            · exact (List.mem_filter.mp (List.mem_filter.mp h).1).1
            · exact (List.mem_filter.mp (List.mem_filter.mp h).1).1
        have hsubC : ∀ p : RPath,
            p ∈ (chunk.filter fun p => decide (outcome p ≠ .deleted)).filter
              (fun p => isFailureOutcome (outcome p)) → p ∈ chunk :=
          fun p h => (List.mem_filter.mp (List.mem_filter.mp h).1).1
        have hsubAB : ∀ p : RPath,
            p ∈ chunk.filter (fun p => decide (outcome p = .deleted)) ∨
            p ∈ (chunk.filter fun p => decide (outcome p ≠ .deleted)).filter
              (fun p => !isFailureOutcome (outcome p)) → p ∈ chunk := by
          rintro p (h | h)
          · exact (List.mem_filter.mp h).1
          · exact (List.mem_filter.mp (List.mem_filter.mp h).1).1
        have hsuccC : ∀ p : RPath,
            (p ∈ chunk.filter (fun p => decide (outcome p = .deleted)) ∨
             p ∈ (chunk.filter fun p => decide (outcome p ≠ .deleted)).filter
               (fun p => !isFailureOutcome (outcome p))) →
            p ∉ (chunk.filter fun p => decide (outcome p ≠ .deleted)).filter
              (fun p => isFailureOutcome (outcome p)) := by
          rintro p (h | h) hpc
          · have hd := (List.mem_filter.mp h).2
            have hnd' := (List.mem_filter.mp (List.mem_filter.mp hpc).1).2
            simp at hd hnd'
            exact hnd' hd
          · have hnf := (List.mem_filter.mp h).2
            have hf := (List.mem_filter.mp hpc).2
            simp at hnf hf
            rw [hf] at hnf
            simp at hnf
        have hfailmap : ∀ st0 : BDState,
            (st0.failures ++
              ((chunk.filter fun p => decide (outcome p ≠ .deleted)).filter
                fun p => isFailureOutcome (outcome p)).map
                (fun p => (p, mkFailureOf (outcome p)))).map Prod.fst =
            st0.failures.map Prod.fst ++
              (chunk.filter fun p => decide (outcome p ≠ .deleted)).filter
                (fun p => isFailureOutcome (outcome p)) := by
          intro st0
          rw [List.map_append, List.map_map]
          congr 1
          show List.map (fun p => p) _ = _
          exact List.map_id _
        obtain ⟨st', hloop', hU', h1', h2', h3', herr', hfail'⟩ :=
          ih { st with
              successes := st.successes ++
                (chunk.filter fun p => decide (outcome p = .deleted)) ++
                (chunk.filter fun p => decide (outcome p ≠ .deleted)).filter
                  (fun p => !isFailureOutcome (outcome p)),
              failures := st.failures ++
                ((chunk.filter fun p => decide (outcome p ≠ .deleted)).filter
                  fun p => isFailureOutcome (outcome p)).map
                  (fun p => (p, mkFailureOf (outcome p))) }
            (processed ++ chunk) hwfR hndassoc
            (by
              intro p
              have h0 := hU p
              have h1 := hABC p
              clear ih
              show (p ∈ st.successes ++ _ ++ _ ∨ _ ∨ _) ↔ _
              rw [hfailmap st]
              simp only [List.mem_append] at h0 h1 ⊢
              tauto)
            (by
              rintro p ⟨hs, hf⟩
              rw [hfailmap st] at hf
              simp only [List.mem_append] at hs hf
              rcases hf with hf | hf
              · rcases hs with (hs | hs) | hs
                · exact hd1 p ⟨hs, hf⟩
                · exact hdisjPC p (hsubAB p (Or.inl hs))
                    ((hU p).mp (Or.inr (Or.inl hf)))
                · exact hdisjPC p (hsubAB p (Or.inr hs))
                    ((hU p).mp (Or.inr (Or.inl hf)))
              · rcases hs with (hs | hs) | hs
                · exact hdisjPC p (hsubC p hf) ((hU p).mp (Or.inl hs))
                · exact hsuccC p (Or.inl hs) hf
                · exact hsuccC p (Or.inr hs) hf)
            (by
              rintro p ⟨hs, hu⟩
              simp only [List.mem_append] at hs
              rcases hs with (hs | hs) | hs
              · exact hd2 p ⟨hs, hu⟩
              · exact hdisjPC p (hsubAB p (Or.inl hs))
                  ((hU p).mp (Or.inr (Or.inr hu)))
              · exact hdisjPC p (hsubAB p (Or.inr hs))
                  ((hU p).mp (Or.inr (Or.inr hu))))
            (by
              rintro p ⟨hf, hu⟩
              rw [hfailmap st] at hf
              simp only [List.mem_append] at hf
              rcases hf with hf | hf
              · exact hd3 p ⟨hf, hu⟩
              · exact hdisjPC p (hsubC p hf) ((hU p).mp (Or.inr (Or.inr hu))))
        rw [hloop]
        refine ⟨st', hloop', ?_, h1', h2', h3', ?_, ?_⟩
        · intro p
          rw [List.flatten_cons, ← List.append_assoc]
          exact hU' p
        · rw [herr']
          constructor
          · rintro ⟨_, hall⟩
            refine ⟨rfl, ?_⟩
            intro c hc
            rcases List.mem_cons.mp hc with rfl | hc'
            · exact htr
            · exact hall c hc'
          · rintro ⟨_, hall⟩
            exact ⟨herr0, fun c hc => hall c (List.mem_cons_of_mem _ hc)⟩
        · rintro ⟨_, hall⟩
          have hrestnone : ∀ c ∈ rest, trans c = none :=
            fun c hc => hall c (List.mem_cons_of_mem _ hc)
          have hf' := hfail' ⟨show st.error = none from herr0, hrestnone⟩
          rw [hf']
          have hCnil : ((chunk.filter fun p => decide (outcome p ≠ .deleted)).filter
              (fun p => isFailureOutcome (outcome p))).map
              (fun p => (p, mkFailureOf (outcome p))) = [] ↔
              (∀ p ∈ chunk, isFailureOutcome (outcome p) = false) := by
            rw [List.map_eq_nil_iff, List.filter_eq_nil_iff]
            constructor
            · intro h p hp
              by_cases hdel : outcome p = .deleted
              · rw [hdel]; rfl
              · by_cases hf : isFailureOutcome (outcome p)
                · exact absurd hf (by
                    have := h p (List.mem_filter.mpr ⟨hp, by simp [hdel]⟩)
                    simpa using this)
                · simpa using hf
            · intro h p hp
              have := h p ((List.mem_filter.mp hp).1)
              simp [this]
          constructor
          · rintro ⟨hst1, hrest⟩
            have := List.append_eq_nil.mp hst1
            refine ⟨this.1, ?_⟩
            intro p hp
            rw [List.flatten_cons] at hp
            rcases List.mem_append.mp hp with hp | hp
            · exact hCnil.mp this.2 p hp
            · exact hrest p hp
          · rintro ⟨hst0, hboth⟩
            have hchunknofail : ∀ p ∈ chunk, isFailureOutcome (outcome p) = false := by
              intro p hp
              exact hboth p (by rw [List.flatten_cons]; exact List.mem_append.mpr (Or.inl hp))
            refine ⟨?_, ?_⟩
            · rw [hst0, hCnil.mpr hchunknofail]
              rfl
            · intro p hp
              exact hboth p (by rw [List.flatten_cons]; exact List.mem_append.mpr (Or.inr hp))

/-- C3 counterexample: the partition claim fails as stated on a key list
with a duplicate.  With keys [a, b, c, a] and batch size 3 (the source's
test configuration), a first batch deleting everything and a second batch
call failing in transport, the key `a` lands in both `successes` and
`unattempted` — the collections are not pairwise disjoint. -/
theorem claim3_counterexample :
    ∃ res : BulkDeleteError,
      bulk_delete [] MAX_NUM_KEYS_TEST dupRespond dupPaths = some (.error res) ∧
      path1 ("a") ∈ res.successes ∧ path1 ("a") ∈ res.unattempted :=
  ⟨{ error := some ("boom"),
     successes := [path1 ("a"), path1 ("b"), path1 ("c")],
     failures := [],
     unattempted := [path1 ("a")] }, rfl, by decide, by decide⟩

/-- C3 (amended): for every duplicate-free input list of well-formed keys
(components non-empty, separator-free and not the `.` marker, so that the
recorded path of a key is the key itself), every per-key remote verdict
assignment and every per-batch transport verdict, the outcome's successes,
failure keys and unattempted keys are pairwise disjoint and their union is
exactly the input key set, and `bulk_delete` returns Ok if and only if no
batch call had a transport error and no key's verdict folds into a
failure. -/
theorem claim3_bulk_delete_partition (pre : RPath) (maxKeys : Nat)
    (paths : List RPath) (outcome : RPath → KeyOutcome)
    (trans : List RPath → Option Err)
    (hmax : 0 < maxKeys) (hnd : paths.Nodup)
    (hpre : wfPath pre) (hwf : ∀ p ∈ paths, wfPath p) :
    ∃ st : BDState,
      bulkLoop pre (mkRespond pre outcome trans) (chunksOf maxKeys paths) initBDState
        = some st ∧
      (∀ p, (p ∈ st.successes ∨ p ∈ st.failures.map Prod.fst ∨ p ∈ st.unattempted)
        ↔ p ∈ paths) ∧
      (∀ p, ¬(p ∈ st.successes ∧ p ∈ st.failures.map Prod.fst)) ∧
      (∀ p, ¬(p ∈ st.successes ∧ p ∈ st.unattempted)) ∧
      (∀ p, ¬(p ∈ st.failures.map Prod.fst ∧ p ∈ st.unattempted)) ∧
      (bulk_delete pre maxKeys (mkRespond pre outcome trans) paths = some (.ok ()) ↔
        ((∀ chunk ∈ chunksOf maxKeys paths, trans chunk = none) ∧
         ∀ p ∈ paths, isFailureOutcome (outcome p) = false)) := by
  have hjoin : (chunksOf maxKeys paths).flatten = paths := chunksOf_join maxKeys hmax paths
  have hwfc : ∀ chunk ∈ chunksOf maxKeys paths, ∀ p ∈ chunk, wfPath p := by
    intro c hc p hp
    exact hwf p (by rw [← hjoin]; exact List.mem_flatten.mpr ⟨c, hc, hp⟩)
  have hndall : (([] : List RPath) ++ (chunksOf maxKeys paths).flatten).Nodup := by
    rw [List.nil_append, hjoin]
    exact hnd
  obtain ⟨st, hloop, hU, h1, h2, h3, herr, hfail⟩ :=
    bulkLoop_invariant pre hpre outcome trans (chunksOf maxKeys paths) initBDState []
      hwfc hndall (by intro p; simp [initBDState]) (by intro p; simp [initBDState])
      (by intro p; simp [initBDState]) (by intro p; simp [initBDState])
  refine ⟨st, hloop, ?_, h1, h2, h3, ?_⟩
  · intro p
    rw [hU p, List.nil_append, hjoin]
  · have hbd : bulk_delete pre maxKeys (mkRespond pre outcome trans) paths =
        (if st.error.isNone && st.failures.isEmpty then some (.ok ())
         else some (.error { error := st.error, successes := st.successes,
                             failures := st.failures,
                             unattempted := st.unattempted })) := by
      unfold bulk_delete
      rw [hloop]
      rfl
    rw [hbd]
    have herr' : st.error = none ↔
        ∀ chunk ∈ chunksOf maxKeys paths, trans chunk = none := by
      rw [herr]
      simp [initBDState]
    have hfail' : (∀ chunk ∈ chunksOf maxKeys paths, trans chunk = none) →
        (st.failures = [] ↔ ∀ p ∈ paths, isFailureOutcome (outcome p) = false) := by
      intro hall
      rw [hfail ⟨rfl, hall⟩, hjoin]
      simp [initBDState]
    have hcond : (st.error.isNone && st.failures.isEmpty) = true ↔
        (st.error = none ∧ st.failures = []) := by
      rw [Bool.and_eq_true, Option.isNone_iff_eq_none, List.isEmpty_iff]
    constructor
    · intro hOk
      by_cases hc : (st.error.isNone && st.failures.isEmpty) = true
      · obtain ⟨hce, hcf⟩ := hcond.mp hc
        have htrans := herr'.mp hce
        exact ⟨htrans, (hfail' htrans).mp hcf⟩
      · rw [if_neg hc] at hOk
        simp at hOk
    · rintro ⟨htrans, hnofail⟩
      have hce : st.error = none := herr'.mpr htrans
      have hcf : st.failures = [] := (hfail' htrans).mpr hnofail
      rw [if_pos (hcond.mpr ⟨hce, hcf⟩)]

theorem claim3_witness :
    ∃ st : BDState,
      bulkLoop [] (mkRespond [] (fun _ => KeyOutcome.deleted) (fun _ => none))
        (chunksOf 3 [path1 ("a"), path1 ("b")]) initBDState = some st ∧
      (∀ p, (p ∈ st.successes ∨ p ∈ st.failures.map Prod.fst ∨ p ∈ st.unattempted)
        ↔ p ∈ [path1 ("a"), path1 ("b")]) ∧
      (∀ p, ¬(p ∈ st.successes ∧ p ∈ st.failures.map Prod.fst)) ∧
      (∀ p, ¬(p ∈ st.successes ∧ p ∈ st.unattempted)) ∧
      (∀ p, ¬(p ∈ st.failures.map Prod.fst ∧ p ∈ st.unattempted)) ∧
      (bulk_delete [] 3 (mkRespond [] (fun _ => KeyOutcome.deleted) (fun _ => none))
          [path1 ("a"), path1 ("b")] = some (.ok ()) ↔
        ((∀ chunk ∈ chunksOf 3 [path1 ("a"), path1 ("b")],
            (fun _ : List RPath => (none : Option Err)) chunk = none) ∧
         ∀ p ∈ [path1 ("a"), path1 ("b")],
           isFailureOutcome ((fun _ : RPath => KeyOutcome.deleted) p) = false)) :=
  claim3_bulk_delete_partition [] 3 [path1 ("a"), path1 ("b")]
    (fun _ => KeyOutcome.deleted) (fun _ => none)
    (by decide) (by decide) (by decide) (by decide)

end S3Storage
